import Mathlib

/-!
# Verification of the `gilp` revised simplex kernel (`src/gilp/simplex.py`)

Shallow embedding of the solver over exact rationals:

* numpy arrays become `List ℚ` / `List (List ℚ)` (row-major);
* Python exceptions become an `Except PyErr` result, with one `PyErr`
  constructor per exception class raised by the source
  (`UnboundedLinearProgram`, `InvalidBasis`, `Infeasible`,
  `InfeasibleBasicSolution`, `ValueError`, `IndexError`);
* basis lists are `List ℤ`, because Python `int` indices may be negative and
  numpy interprets in-range negative indices by wrapping around
  (`a[-1]` is the last entry);
* `scipy.linalg.solve` and `numpy.linalg.inv` are modelled exactly over ℚ by
  Cramer determinants (`detN`, `solveL`, `invL`);
* `numpy.linalg.matrix_rank(M) == len(M)` for a square matrix over exact
  rationals is equivalent to `det M ≠ 0`, which is how `invertible` is
  embedded;
* `numpy.allclose(a, b, atol=t)` keeps its default relative tolerance
  `rtol = 1e-5`: entrywise `|a - b| ≤ t + rtol * |b|`;
* the two unbounded `while` loops (`phase_one`'s auxiliary loop and the
  `simplex` driver loop) take an explicit fuel argument and report fuel
  exhaustion as the embedding-only error `PyErr.outOfFuel`;
* iteration over `set(range(n)) - set(B)` in CPython visits small
  nonnegative ints in increasing order, which the embedding realises as an
  ascending filtered range;
* `input()` inside the `manual_select` pivot rule is modelled as an extra
  integer argument `uin` (the externally supplied choice).
-/

namespace Gilp

/-- Python exception classes that `simplex.py` can raise, plus
`outOfFuel`, the embedding's marker for a truncated unbounded loop. -/
inductive PyErr where
  | unboundedLinearProgram (msg : String)
  | invalidBasis (basis : List ℤ)
  | invalidBasisMsg (msg : String)
  | infeasible (msg : String)
  | infeasibleBasicSolution (x : List ℚ)
  | valueError (msg : String)
  | indexError
  | outOfFuel
  deriving DecidableEq, Repr

instance {ε α : Type} [DecidableEq ε] [DecidableEq α] : DecidableEq (Except ε α)
  | .error e, .error f =>
      if h : e = f then .isTrue (by rw [h])
      else .isFalse (by intro hh; injection hh; contradiction)
  | .error _, .ok _ => .isFalse (by intro hh; injection hh)
  | .ok _, .error _ => .isFalse (by intro hh; injection hh)
  | .ok a, .ok b =>
      if h : a = b then .isTrue (by rw [h])
      else .isFalse (by intro hh; injection hh; contradiction)

/-- Whether an error is of Python's built-in `ValueError` class (as opposed
to one of the solver's own exception classes). -/
def isValueError : PyErr → Bool
  | .valueError _ => true
  | _ => false

/-- numpy index wrap-around: an in-range negative index `i` counts from the
end of an axis of length `len`.  (An out-of-range index raises `IndexError`
in numpy; `get_basic_feasible_sol` — the one embedded call site whose inputs
are unconstrained — checks the range explicitly before indexing, and the
embedding returns position `0` at the remaining guarded sites.) -/
def wrapIdx (len : ℕ) (i : ℤ) : ℕ :=
  if i < 0 then ((len : ℤ) + i).toNat else i.toNat

/-- `v[i]` for a length-`v.length` numpy vector with wrap-around. -/
def wrapGet (v : List ℚ) (i : ℤ) : ℚ :=
  v.getD (wrapIdx v.length i) 0

/-- Entrywise dot product, driven by the length of the first list
(`numpy.dot` of a row with a column). -/
def dotL (a b : List ℚ) : ℚ :=
  ∑ j ∈ Finset.range a.length, a.getD j 0 * b.getD j 0

/-- A list of `len` zeros (`numpy.zeros`). -/
def zerosL (len : ℕ) : List ℚ := List.replicate len 0

/-- Simultaneous fancy-index assignment `v[ps] = vals` (numpy reads the
right-hand side in full before writing). -/
def scatterW (v : List ℚ) (ps : List ℤ) (vals : List ℚ) : List ℚ :=
  (ps.zip vals).foldl (fun acc pv => acc.set (wrapIdx acc.length pv.1) pv.2) v

/-- Column selection `A[:, B]` with numpy wrap-around on each row. -/
def colsel (A : List (List ℚ)) (B : List ℤ) : List (List ℚ) :=
  A.map (fun r => B.map (fun j => wrapGet r j))

/-- Column `j` (a plain nonnegative index) of a row-major matrix. -/
def colOf (A : List (List ℚ)) (j : ℕ) : List ℚ :=
  A.map (fun r => r.getD j 0)

/-- `numpy.transpose` for a rectangular row-major matrix. -/
def transposeL (A : List (List ℚ)) : List (List ℚ) :=
  (List.range (A.headD []).length).map (fun j => colOf A j)

/-- Laplace expansion of the determinant along the first row, with the
dimension threaded explicitly so the recursion is structural (and hence
kernel-reducible).  `detN k M` is the determinant of the top-left `k × k`
block read off `M` with out-of-range entries defaulting to `0`; it is only
applied to square `k × k` matrices. -/
def detN : ℕ → List (List ℚ) → ℚ
  | 0, _ => 1
  | k + 1, M =>
      ∑ j ∈ Finset.range (k + 1),
        (-1 : ℚ) ^ j * (M.headD []).getD j 0 *
          detN k (M.tail.map (fun row => row.eraseIdx j))

/-- Determinant of a square list matrix. -/
def detL (M : List (List ℚ)) : ℚ := detN M.length M

/-- `invertible(A)` from the source: `A` is square and has full rank.
Over exact rationals full rank of a square matrix is `det ≠ 0`. -/
def invertible (M : List (List ℚ)) : Bool :=
  M.length == (M.headD []).length && !(detL M == 0)

/-- Replace column `j` of `M` by `b` (used by Cramer's rule). -/
def updateColL (M : List (List ℚ)) (j : ℕ) (b : List ℚ) : List (List ℚ) :=
  (List.range M.length).map (fun i => (M.getD i []).set j (b.getD i 0))

/-- `scipy.linalg.solve(M, b)` for a square invertible `M`, computed exactly
by Cramer's rule.  (The source only calls `solve` behind an invertibility
guard.) -/
def solveL (M : List (List ℚ)) (b : List ℚ) : List ℚ :=
  (List.range M.length).map (fun i => detN M.length (updateColL M i b) / detL M)

/-- Standard basis vector of length `len` with a `1` in position `j`. -/
def unitL (len j : ℕ) : List ℚ :=
  (List.range len).map (fun i => if i = j then 1 else 0)

/-- `numpy.linalg.inv(M)`: column `j` of the inverse solves `M x = e_j`. -/
def invL (M : List (List ℚ)) : List (List ℚ) :=
  (List.range M.length).map
    (fun i => (List.range M.length).map (fun j => (solveL M (unitL M.length j)).getD i 0))

/-- Ascending sort of a Python `int` list (`B.sort()`). -/
def sortInts (B : List ℤ) : List ℤ := List.insertionSort (· ≤ ·) B

/-- `numpy.allclose(a, b, atol)` with numpy's default relative tolerance
`rtol = 1e-5`. -/
def allclose (a b : List ℚ) (atol : ℚ) : Bool :=
  a.length == b.length &&
    (List.range a.length).all
      (fun i => |a.getD i 0 - b.getD i 0| ≤ atol + (1 / 100000) * |b.getD i 0|)

/-- Boolean membership vector: `v = zeros(len); v[B] = 1` (with numpy
wrap-around), read back as a list of `Bool`. -/
def boolVec (len : ℕ) (B : List ℤ) : List Bool :=
  B.foldl (fun acc i => acc.set (wrapIdx len i) true) (List.replicate len false)

/-- Positions of `true` entries, ascending (`numpy.nonzero`). -/
def truePositions (v : List Bool) : List ℤ :=
  ((List.range v.length).filter (fun i => v.getD i false = true)).map Int.ofNat

/-- Matrix–vector product `numpy.dot(A, x)`. -/
def matvecL (A : List (List ℚ)) (x : List ℚ) : List ℚ :=
  A.map (fun r => dotL r x)

/-- `LP`: the coefficients and size of a linear program, as stored by the
Python `LP` class (`A` is `m × n`, `b` has length `m`, `c` has length `n`,
`equality` tells whether constraints are `Ax = b` or `Ax ≤ b`). -/
structure LP where
  A : List (List ℚ)
  b : List ℚ
  c : List ℚ
  equality : Bool
  deriving DecidableEq, Repr

/-- `m = len(A)`: number of constraints. -/
def LP.m (lp : LP) : ℕ := lp.A.length

/-- `n = len(A[0])`: number of decision variables. -/
def LP.n (lp : LP) : ℕ := (lp.A.headD []).length

/-- The shape invariant that numpy arrays plus the `LP.__init__` checks
guarantee for every constructible LP: `A` is a nonempty rectangular `m × n`
matrix, `b` has length `m` and `c` has length `n`. -/
def LP.WF (lp : LP) : Prop :=
  lp.A ≠ [] ∧ (∀ r ∈ lp.A, r.length = lp.n) ∧
    lp.b.length = lp.m ∧ lp.c.length = lp.n

instance (lp : LP) : Decidable lp.WF := by
  unfold LP.WF; infer_instance

/-- The `LP.__init__` constructor: records the coefficients after checking
that the shapes of `b` and `c` match `A` (`ValueError` otherwise; reading
`len(A[0])` of an empty `A` is an `IndexError`). -/
def mkLP (A : List (List ℚ)) (b c : List ℚ) (equality : Bool) : Except PyErr LP :=
  match A with
  | [] => .error .indexError
  | r0 :: _ =>
      if b.length = A.length then
        if c.length = r0.length then
          .ok ⟨A, b, c, equality⟩
        else .error (.valueError "c should have shape (n,1) or (n) but was different.")
      else .error (.valueError "b should have shape (m,1) or (m) but was different.")

/-- Identity-matrix row `i` of size `m` (used to append slack and artificial
variable blocks). -/
def idRow (m i : ℕ) : List ℚ :=
  (List.range m).map (fun j => if j = i then 1 else 0)

/-- `equality_form(lp)`: append a slack-variable identity block (and zero
objective entries) when the LP is in inequality form, then flip the sign of
every row whose right-hand side is negative, so the result has
`equality = true` and `b ≥ 0`. -/
def equalityForm (lp : LP) : LP :=
  let m := lp.A.length
  let A1 := if lp.equality then lp.A
            else lp.A.enum.map (fun p => p.2 ++ idRow m p.1)
  let c1 := if lp.equality then lp.c else lp.c ++ List.replicate m 0
  let A2 := (A1.zip lp.b).map (fun rb => if rb.2 < 0 then rb.1.map (fun v => -v) else rb.1)
  let b2 := lp.b.map (fun v => if v < 0 then -v else v)
  ⟨A2, b2, c1, true⟩

/-- The candidate basic solution of `LP.get_basic_feasible_sol(B, tol)`:
canonicalize, sort `B`, solve the square system `A_B x_B = b` exactly and
scatter the solution into a zero vector at the (wrapped) basis positions. -/
def bfsCandidate (lp : LP) (B : List ℤ) : List ℚ :=
  scatterW (zerosL (equalityForm lp).n) (sortInts B)
    (solveL (colsel (equalityForm lp).A (sortInts B)) (equalityForm lp).b)

/-- The default `feasibility_tol` of the source, `1e-7` (both the module
default and the hard-coded default of the `get_basic_feasible_sol` call
inside `simplex_iteration`). -/
def defaultTol : ℚ := 1 / 10000000

/-- The body of `get_basic_feasible_sol` after canonicalizing and sorting:
the guard `B[-1] < n and invertible(A[:, B])` evaluates left to right — an
empty `B` makes `B[-1]` an `IndexError`; when `B[-1] < n` holds, numpy
builds `A[:, B]` next, raising `IndexError` if some index lies below `-n`
(indices above `n - 1` are impossible there, as `B` is sorted), and
`InvalidBasis` is raised when `B[-1] ≥ n` or the wrapped column submatrix is
not invertible.  Every entry of the candidate solution must then be `≥ -tol`
(`InfeasibleBasicSolution` otherwise). -/
def getBasicFeasibleSol (lp : LP) (B : List ℤ) (tol : ℚ) : Except PyErr (List ℚ) :=
  match (sortInts B).getLast? with
  | none => .error .indexError
  | some last =>
      if last < (((equalityForm lp).n : ℕ) : ℤ) then
        if (sortInts B).all (fun i => -(((equalityForm lp).n : ℕ) : ℤ) ≤ i) then
          if invertible (colsel (equalityForm lp).A (sortInts B)) = true then
            if (bfsCandidate lp B).all (fun v => -tol ≤ v) then .ok (bfsCandidate lp B)
            else .error (.infeasibleBasicSolution (bfsCandidate lp B))
          else .error (.invalidBasis (sortInts B))
        else .error .indexError
      else .error (.invalidBasis (sortInts B))

/-- `LP.get_tableau(B)`: the `(m+1) × (n+2)` simplex tableau for basis `B`
(`InvalidBasis` when `A[:, B]` is not invertible).  Row 0 carries the negated
reduced costs and the objective `yᵀb`; rows `1..m` carry `A_B⁻¹ A_N`, an
identity block in the basic columns, and `A_B⁻¹ b`. -/
def getTableau (lp : LP) (B : List ℤ) : Except PyErr (List (List ℚ)) :=
  let lpE := equalityForm lp
  let n := lpE.n
  let A := lpE.A
  let b := lpE.b
  let c := lpE.c
  if invertible (colsel A B) = true then
    let N := (List.range n).filter (fun j => Int.ofNat j ∉ B)
    let Bs := sortInts B
    let ABinv := invL (colsel A Bs)
    let yT := (List.range (colsel A Bs).length).map
      (fun j => dotL (Bs.map (fun i => wrapGet c i)) (colOf ABinv j))
    let row0mid :=
      N.foldl (fun acc j => acc.set j (-(c.getD j 0 - dotL yT (colOf A j)))) (zerosL n)
    let row0 := 1 :: row0mid ++ [dotL yT b]
    let bodyRow := fun i =>
      let afterN :=
        N.foldl (fun acc j => acc.set j (dotL (ABinv.getD i []) (colOf A j))) (zerosL n)
      let afterB :=
        (List.range Bs.length).foldl
          (fun acc idx =>
            acc.set (wrapIdx n (Bs.getD idx 0)) (if idx = i then 1 else 0)) afterN
      0 :: afterB ++ [dotL (ABinv.getD i []) b]
    .ok (row0 :: (List.range A.length).map bodyRow)
  else
    .error (.invalidBasisMsg "Invalid basis. A_B is not invertible.")

/-- The pivot rules recognised by `simplex_iteration` and `simplex`. -/
def pivotRules : List String :=
  ["bland", "min_index", "dantzig", "max_reduced_cost", "greatest_ascent", "manual_select"]

/-- Message of the `ValueError` raised for an unrecognised pivot rule. -/
def invalidPivotMsg : String :=
  "Invalid pivot rule. Select from [bland, min_index, dantzig, max_reduced_cost, greatest_ascent, manual_select]"

/-- Minimum of a list of naturals (`min(entering.keys())`); `0` on `[]`. -/
def minNatL (l : List ℕ) : ℕ := l.foldl min (l.headD 0)

/-- Minimum of a list of integers; `0` on `[]`. -/
def minZ (l : List ℤ) : ℤ := l.foldl min (l.headD 0)

/-- Minimum of a list of rationals (`min(ratios.values())`); `0` on `[]`. -/
def minQ (l : List ℚ) : ℚ := l.foldl min (l.headD 0)

/-- `max(entering, key=entering.get)`: the first key attaining the maximal
value, scanning in iteration order. -/
def argmaxFirst (f : ℕ → ℚ) (l : List ℕ) : ℕ :=
  l.foldl (fun best k => if f k > f best then k else best) (l.headD 0)

/-- The selection the spec describes for `greatest_ascent` ties: the
candidate whose maximal increase was found *first* (strict improvement
replaces, ties keep the incumbent). -/
def firstArgmaxBy (inc : ℕ → ℚ) (ks : List ℕ) : ℕ :=
  ks.foldl (fun best k => if inc best < inc k then k else best) (ks.headD 0)

/-- The selection the code actually performs for `greatest_ascent` ties: the
candidate whose maximal increase was found *last* (a tie overwrites the
dictionary entry). -/
def lastArgmaxBy (inc : ℕ → ℚ) (ks : List ℕ) : ℕ :=
  ks.foldl (fun best k => if inc best ≤ inc k then k else best) (ks.headD 0)

/-- The simplex direction `d` for entering index `k`:
`d = zeros(n); d[:, B] = solve(A[:, B], A[:, k])`. -/
def dirOf (n : ℕ) (A : List (List ℚ)) (Bs : List ℤ) (k : ℤ) : List ℚ :=
  scatterW (zerosL n) Bs (solveL (colsel A Bs) (A.map (fun r => wrapGet r k)))

/-- The ratio test dictionary `{i : x[i] / d[i] for i in B if d[i] > 0}`,
in basis iteration order. -/
def ratiosOf (x : List ℚ) (Bs : List ℤ) (d : List ℚ) : List (ℤ × ℚ) :=
  Bs.filterMap (fun i => if 0 < wrapGet d i then some (i, wrapGet x i / wrapGet d i) else none)

/-- Python-dict assignment `eligible[key] = v`: overwrite the value when the
key is present (keeping its position), append otherwise. -/
def assocPut {α : Type} (l : List (ℚ × α)) (key : ℚ) (v : α) : List (ℚ × α) :=
  if l.any (fun p => p.1 == key) then
    l.map (fun p => if p.1 == key then (key, v) else p)
  else l ++ [(key, v)]

/-- Largest key of an association list (`max(eligible.keys())`); `0` on `[]`. -/
def maxKeyQ {α : Type} (l : List (ℚ × α)) : ℚ :=
  (l.map Prod.fst).foldl max ((l.map Prod.fst).headD 0)

/-- `eligible[max(eligible.keys())]`. -/
def gaPick (l : List (ℚ × (ℤ × ℤ × ℚ × List ℚ))) : ℤ × ℤ × ℚ × List ℚ :=
  (l.lookup (maxKeyQ l)).getD (0, 0, 0, [])

/-- One candidate evaluation of the `greatest_ascent` rule: run the full
ratio test for entering candidate `k` (raising `UnboundedLinearProgram` when
no basic direction component is positive) and return the achievable
objective increase `t * red_costs[k]` together with `(k, r, t, d)`. -/
def gaStep (n : ℕ) (A : List (List ℚ)) (red x : List ℚ) (Bs : List ℤ) (k : ℕ) :
    Except PyErr (ℚ × (ℤ × ℤ × ℚ × List ℚ)) :=
  let d := dirOf n A Bs (Int.ofNat k)
  let rts := ratiosOf x Bs d
  if rts = [] then .error (.unboundedLinearProgram "This LP is unbounded")
  else
    let t0 := minQ (rts.map Prod.snd)
    let rpos := (rts.filter (fun p => p.2 = t0)).map Prod.fst
    let r := minZ rpos
    let t := ((rts.lookup r).getD 0)
    .ok (t * red.getD k 0, (Int.ofNat k, r, t, d))

/-- The `for k in entering` loop of the `greatest_ascent` rule, accumulating
the `eligible` dictionary (duplicate keys overwrite earlier entries). -/
def gaFold {α : Type} (step : ℕ → Except PyErr (ℚ × α)) :
    List ℕ → List (ℚ × α) → Except PyErr (List (ℚ × α))
  | [], acc => .ok acc
  | k :: ks, acc =>
      match step k with
      | .error e => .error e
      | .ok kv => gaFold step ks (assocPut acc kv.1 kv.2)

/-- The state update shared by every pivot rule: `x[k] = t`;
`x[B] = x[B] - t * d[B]` (numpy reads before writing); swap `k` into the
basis for `r`; report the new objective value and `optimal = False`. -/
def iterUpdate (c x : List ℚ) (Bs : List ℤ) (k r : ℤ) (t : ℚ) (d : List ℚ) :
    Except PyErr (List ℚ × List ℤ × ℚ × Bool) :=
  let x1 := x.set (wrapIdx x.length k) t
  let x2 := scatterW x1 Bs (Bs.map (fun i => wrapGet x1 i - t * wrapGet d i))
  let B2 := (Bs ++ [k]).erase r
  .ok (x2, B2, dotL c x2, false)

/-- The reduced-cost vector `c - (yᵀ A)ᵀ` of `simplex_iteration`, with the
dual `y = solve(A[:, B].T, c[B])` inlined. -/
def redCosts (n : ℕ) (A : List (List ℚ)) (c : List ℚ) (Bs : List ℤ) : List ℚ :=
  (List.range n).map (fun j => c.getD j 0 -
    dotL (colOf A j)
      (solveL (transposeL (colsel A Bs)) (Bs.map (fun i => wrapGet c i))))

/-- The entering candidates: nonbasic indices with a positive reduced cost,
in the (ascending) iteration order of `set(range(n)) - set(B)`. -/
def enteringOf (n : ℕ) (A : List (List ℚ)) (c : List ℚ) (Bs : List ℤ) : List ℕ :=
  ((List.range n).filter (fun j => Int.ofNat j ∉ Bs)).filter
    (fun k => 0 < (redCosts n A c Bs).getD k 0)

/-- The entering index selected by a non-`greatest_ascent` pivot rule:
`bland`/`min_index` take the smallest candidate, `dantzig`/
`max_reduced_cost` the first candidate with the largest reduced cost, and
`manual_select` uses the externally supplied 1-based choice. -/
def chooseEntering (rule : String) (red : List ℚ) (ks : List ℕ) (uin : ℤ) : ℤ :=
  if rule = "bland" ∨ rule = "min_index" then Int.ofNat (minNatL ks)
  else if rule = "dantzig" ∨ rule = "max_reduced_cost" then
    Int.ofNat (argmaxFirst (fun j => red.getD j 0) ks)
  else uin - 1

/-- The body of `simplex_iteration` after its input validation: compute the
dual `y`, reduced costs, and entering candidates; return optimal when there
is none; otherwise select the entering index by the pivot rule, run the
ratio test (`UnboundedLinearProgram` when empty) and pivot. -/
def iterCore (n : ℕ) (A : List (List ℚ)) (c x : List ℚ) (Bs : List ℤ)
    (rule : String) (uin : ℤ) : Except PyErr (List ℚ × List ℤ × ℚ × Bool) :=
  if enteringOf n A c Bs = [] then .ok (x, Bs, dotL c x, true)
  else if rule = "greatest_ascent" then
    match gaFold (gaStep n A (redCosts n A c Bs) x Bs) (enteringOf n A c Bs) [] with
    | .error e => .error e
    | .ok elig =>
        let p := gaPick elig
        iterUpdate c x Bs p.1 p.2.1 p.2.2.1 p.2.2.2
  else
    let k : ℤ := chooseEntering rule (redCosts n A c Bs) (enteringOf n A c Bs) uin
    let d := dirOf n A Bs k
    let rts := ratiosOf x Bs d
    if rts = [] then .error (.unboundedLinearProgram "This LP is unbounded")
    else
      let t0 := minQ (rts.map Prod.snd)
      let rpos := (rts.filter (fun p => p.2 = t0)).map Prod.fst
      let r := minZ rpos
      let t := ((rts.lookup r).getD 0)
      iterUpdate c x Bs k r t d

/-- `simplex_iteration(lp, x, B, pivot_rule, feasibility_tol)`: validate the
rule (`ValueError`), the shape of `x` (`ValueError`), and that `x` matches
the basic feasible solution of `B` within tolerance (`ValueError`; the
validation call itself sorts `B`).  The inner `lp.get_basic_feasible_sol(B)`
call is made without a tolerance argument, so it always uses its hard-coded
default `1e-7` — only the `allclose` comparison uses the caller's
`feasibility_tol`.  Then run one revised simplex pivot.  `uin` models the
`int(input(...))` of the `manual_select` rule. -/
def simplexIteration (lp : LP) (x : List ℚ) (B : List ℤ) (rule : String)
    (tol : ℚ) (uin : ℤ) : Except PyErr (List ℚ × List ℤ × ℚ × Bool) :=
  if rule ∈ pivotRules then
    let lpE := equalityForm lp
    if x.length = lpE.n then
      match getBasicFeasibleSol lp B defaultTol with
      | .error e => .error e
      | .ok xB =>
          if allclose x xB tol = true then
            iterCore lpE.n lpE.A lpE.c x (sortInts B) rule uin
          else
            .error (.valueError "The basis corresponds to a different basic feasible solution.")
    else .error (.valueError "x should have shape (n,1) but was different.")
  else .error (.valueError invalidPivotMsg)

/-- Rows `1..m` of a tableau without their first and last entries
(`T[1:, 1:-1]`). -/
def tableauBody (T : List (List ℚ)) : List (List ℚ) :=
  T.tail.map (fun row => row.tail.dropLast)

/-- The right-hand-side column of a tableau (`T[1:, -1]`). -/
def tableauRhs (T : List (List ℚ)) : List ℚ :=
  T.tail.map (fun row => (row.getLast?).getD 0)

/-- Positions of nonzero entries of a vector, ascending (`numpy.nonzero`). -/
def nonzeroPositions (v : List ℚ) : List ℕ :=
  (List.range v.length).filter (fun i => v.getD i 0 ≠ 0)

/-- The auxiliary-LP loop of `phase_one`: one simplex iteration, then the
tableau at the new basis, then pruning of every artificial variable that has
left the basis (columns restricted to `range(n)` plus basic artificials),
rebuilding a smaller auxiliary LP; stop once the iteration reports
optimality.  The Python `get_tableau` call sorts its basis argument in
place, which the embedding mirrors by threading the sorted basis. -/
def phaseOneLoop (fuel : ℕ) (n : ℕ) (rule : String) (tol : ℚ) (auxLp : LP)
    (x : List ℚ) (B : List ℤ) : Except PyErr (ℚ × LP × List ℚ × List ℤ) :=
  match fuel with
  | 0 => .error .outOfFuel
  | fuel + 1 =>
      match simplexIteration auxLp x B rule tol 0 with
      | .error e => .error e
      | .ok (x1, B1, value, opt) =>
          match getTableau auxLp B1 with
          | .error e => .error e
          | .ok T =>
              let B2 := sortInts B1
              let A := tableauBody T
              let b := tableauRhs T
              let subset := (List.range n).map Int.ofNat ++
                ((List.range' n (x1.length - n)).map Int.ofNat).filter (fun v => v ∈ B2)
              let A2 := colsel A subset
              let c2 := subset.map (fun i => wrapGet auxLp.c i)
              let ib := boolVec x1.length B2
              let ib2 := subset.map (fun i => ib.getD (wrapIdx ib.length i) false)
              let B3 := truePositions ib2
              let x2 := subset.map (fun i => wrapGet x1 i)
              let auxLp2 : LP := ⟨A2, b, c2, true⟩
              if opt then .ok (value, auxLp2, x2, B3)
              else phaseOneLoop fuel n rule tol auxLp2 x2 B3

/-- One drive-out exchange: if the basic artificial variable's row has a
nonzero coefficient on some column `j < n`, pivot `j` in (recomputing the
tableau of the *stale* auxiliary LP, as the source does) and rebuild `x`
from its right-hand side; otherwise delete the redundant constraint row. -/
def driveOutStep (n : ℕ) (auxLp : LP) (A : List (List ℚ)) (b x : List ℚ)
    (B : List ℤ) (i : ℤ) (ci : ℕ) :
    Except PyErr (List (List ℚ) × List ℚ × List ℚ × List ℤ) :=
  match (List.range n).filter (fun j => (A.getD ci []).getD j 0 ≠ 0) with
  | j :: _ =>
      match getTableau auxLp (sortInts ((Int.ofNat j :: B.filter (fun e => e ≠ i)).dedup)) with
      | .error e => .error e
      | .ok T => .ok (tableauBody T, tableauRhs T,
          scatterW (zerosL x.length)
            (sortInts ((Int.ofNat j :: B.filter (fun e => e ≠ i)).dedup)) (tableauRhs T),
          sortInts ((Int.ofNat j :: B.filter (fun e => e ≠ i)).dedup))
  | [] => .ok (A.eraseIdx ci, b.eraseIdx ci, x, B)

/-- The `while B[-1] >= n` loop of `phase_one`, driving every remaining
basic artificial variable out of the basis via `driveOutStep`, then deleting
the artificial column and reindexing.  An empty basis makes `B[-1]` an
`IndexError`. -/
def driveOut (fuel : ℕ) (n : ℕ) (auxLp : LP) (A : List (List ℚ)) (b c x : List ℚ)
    (B : List ℤ) : Except PyErr (List ℚ × List ℤ) :=
  match fuel with
  | 0 => .error .outOfFuel
  | fuel + 1 =>
      match B.getLast? with
      | none => .error .indexError
      | some i =>
          if i < (n : ℤ) then .ok (x, B)
          else
            if ((List.range A.length).filter
                (fun rIdx => wrapGet (A.getD rIdx []) i ≠ 0)).length ≠ 1 then
              .error (.valueError
                "Should only be one non-zero entry because this index is basic.")
            else
              match driveOutStep n auxLp A b x B i
                (((List.range A.length).filter
                  (fun rIdx => wrapGet (A.getD rIdx []) i ≠ 0)).headD 0) with
              | .error e => .error e
              | .ok (A1, b1, x1, B1) =>
                  let A2 := A1.map (fun row => row.eraseIdx i.toNat)
                  let c2 := c.eraseIdx i.toNat
                  let ib := boolVec x1.length B1
                  let ib2 := ib.eraseIdx i.toNat
                  let B2 := truePositions ib2
                  let x2 := x1.eraseIdx i.toNat
                  driveOut fuel n auxLp A2 b1 c2 x2 B2

/-- The initial auxiliary LP of `phase_one` for a canonicalized `lp`:
`A' = [A | I]`, `c' = (0, …, 0, -1, …, -1)`. -/
def auxInit (lp : LP) : LP :=
  let lpE := equalityForm lp
  let m := lpE.m
  ⟨lpE.A.enum.map (fun p => p.2 ++ idRow m p.1), lpE.b,
    List.replicate lpE.n 0 ++ List.replicate m (-1), true⟩

/-- The initial auxiliary basis: the artificial indices `n .. n+m-1`. -/
def basisInit (lp : LP) : List ℤ :=
  (List.range' (equalityForm lp).n (equalityForm lp).m).map Int.ofNat

/-- The initial auxiliary point: artificial components equal to `b`. -/
def xInit (lp : LP) : List ℚ :=
  let lpE := equalityForm lp
  scatterW (zerosL (lpE.n + lpE.m)) (basisInit lp) lpE.b

/-- `phase_one(lp, pivot_rule, feasibility_tol)`: run the auxiliary loop; if
the final auxiliary objective is below `-tol` the LP is `Infeasible`;
otherwise drive any basic artificial variables out and return the initial
`(x, B)` restricted to the original equality-form variables. -/
def phaseOne (fuel : ℕ) (lp : LP) (rule : String) (tol : ℚ) :
    Except PyErr (List ℚ × List ℤ) :=
  let n := (equalityForm lp).n
  match phaseOneLoop fuel n rule tol (auxInit lp) (xInit lp) (basisInit lp) with
  | .error e => .error e
  | .ok (value, auxLp2, x2, B2) =>
      if value < -tol then .error (.infeasible "The LP has no feasible solutions.")
      else driveOut fuel n auxLp2 auxLp2.A auxLp2.b auxLp2.c x2 B2

/-- The `while(not optimal)` loop of `simplex`: pivot, append the new
`(x, B)` to the path unless optimal, and decrement the optional iteration
limit, stopping with `optimal = False` when it reaches zero. -/
def simplexLoop (fuel : ℕ) (lp : LP) (rule : String) (tol : ℚ) (x : List ℚ)
    (B : List ℤ) (path : List (List ℚ)) (bases : List (List ℤ)) (lim : Option ℤ) :
    Except PyErr (List (List ℚ) × List (List ℤ) × ℚ × Bool) :=
  match fuel with
  | 0 => .error .outOfFuel
  | fuel + 1 =>
      match simplexIteration lp x B rule tol 0 with
      | .error e => .error e
      | .ok (x1, B1, v1, opt) =>
          if opt then .ok (path, bases, v1, true)
          else
            let path1 := path ++ [x1]
            let bases1 := bases ++ [B1]
            match lim with
            | none => simplexLoop fuel lp rule tol x1 B1 path1 bases1 none
            | some l =>
                if l - 1 = 0 then .ok (path1, bases1, v1, false)
                else simplexLoop fuel lp rule tol x1 B1 path1 bases1 (some (l - 1))

/-- The `initial_solution` handling of `simplex`: validate its shape
(`ValueError` on mismatch), accept it over the Phase-1 result only if it
satisfies `A x = b` within tolerance, is nonnegative within tolerance, and
has at most `m` nonzero entries — padding a degenerate support with
nonbasic indices popped from the tail of the nonbasic list — and otherwise
keep the Phase-1 result. -/
def chooseStart (lp : LP) (tol : ℚ) (x0 : List ℚ) (B0 : List ℤ)
    (initialSolution : Option (List ℚ)) : Except PyErr (List ℚ × List ℤ) :=
  match initialSolution with
  | none => .ok (x0, B0)
  | some xs =>
      if xs.length = (equalityForm lp).n then
        if allclose (matvecL (equalityForm lp).A xs) (equalityForm lp).b tol = true ∧
            xs.all (fun v => -tol ≤ v) = true ∧
            (nonzeroPositions xs).length ≤ (equalityForm lp).m then
          .ok (xs, (nonzeroPositions xs).map Int.ofNat ++
            ((((List.range (equalityForm lp).n).filter
                (fun j => Int.ofNat j ∉ (nonzeroPositions xs).map Int.ofNat)).reverse.take
              ((equalityForm lp).m - (nonzeroPositions xs).length)).map Int.ofNat))
        else .ok (x0, B0)
      else .error (.valueError "initial_solution should have shape (n,1) but was different.")

/-- `simplex(lp, pivot_rule, initial_solution, iteration_limit,
feasibility_tol)`: validate the rule and the limit (`ValueError`), run
`phase_one` (with the *default* tolerance, as the source does), optionally
replace its result by a valid caller-supplied initial solution, then
iterate until optimal or out of budget. -/
def simplex (fuel : ℕ) (lp : LP) (rule : String) (initialSolution : Option (List ℚ))
    (iterationLimit : Option ℤ) (tol : ℚ) :
    Except PyErr (List (List ℚ) × List (List ℤ) × ℚ × Bool) :=
  if rule ∈ pivotRules then
    if ∃ l, iterationLimit = some l ∧ l ≤ 0 then
      .error (.valueError "Iteration limit must be strictly positive.")
    else
      match phaseOne fuel lp rule defaultTol with
      | .error e => .error e
      | .ok (x0, B0) =>
          match chooseStart lp tol x0 B0 initialSolution with
          | .error e => .error e
          | .ok (x1, B1) =>
              simplexLoop fuel lp rule tol x1 B1 [x1] [B1] iterationLimit
  else .error (.valueError invalidPivotMsg)

/-- The `m × n` Mathlib matrix read off a row-major list matrix, with
out-of-range entries defaulting to `0` (the same convention as `detN`). -/
def matOf (m n : ℕ) (M : List (List ℚ)) : Matrix (Fin m) (Fin n) ℚ :=
  Matrix.of (fun i j => (M.getD i []).getD j 0)

/-! ## Shape facts about `equalityForm` -/

/-- The common row length of the equality-form coefficient matrix. -/
def eqn (lp : LP) : ℕ := if lp.equality then lp.n else lp.n + lp.m

theorem eqForm_A_length (lp : LP) (hb : lp.b.length = lp.m) :
    (equalityForm lp).A.length = lp.m := by
  simp only [equalityForm, List.length_map, List.length_zip, List.enum_length]
  cases lp.equality <;> simp [LP.m] at hb ⊢ <;> omega

theorem eqForm_b_length (lp : LP) : (equalityForm lp).b.length = lp.b.length := by
  simp [equalityForm]

theorem eqForm_rows (lp : LP) (hWF : lp.WF) :
    ∀ r ∈ (equalityForm lp).A, r.length = eqn lp := by
  obtain ⟨hne, hrows, hb, hc⟩ := hWF
  intro r hr
  simp only [equalityForm] at hr
  rcases List.mem_map.mp hr with ⟨p, hp, rfl⟩
  have hp1 := (List.of_mem_zip hp).1
  have hlen1 : p.1.length = eqn lp := by
    by_cases he : lp.equality
    · rw [if_pos he] at hp1
      rw [eqn, if_pos he]
      exact hrows _ hp1
    · rw [if_neg he] at hp1
      rw [eqn, if_neg he]
      rcases List.mem_map.mp hp1 with ⟨q, hq, hq2⟩
      rw [← hq2, List.length_append, idRow, List.length_map, List.length_range]
      rw [hrows _ (List.snd_mem_of_mem_enum hq), LP.m]
  by_cases hneg : p.2 < 0
  · rw [if_pos hneg, List.length_map]; exact hlen1
  · rw [if_neg hneg]; exact hlen1

theorem eqForm_A_ne_nil (lp : LP) (hWF : lp.WF) : (equalityForm lp).A ≠ [] := by
  have h1 := eqForm_A_length lp hWF.2.2.1
  intro h
  rw [h] at h1
  have : lp.m ≠ 0 := by
    rw [LP.m]
    exact fun hz => hWF.1 (List.length_eq_zero.mp hz)
  exact this h1.symm

theorem eqForm_n (lp : LP) (hWF : lp.WF) : (equalityForm lp).n = eqn lp := by
  have hne := eqForm_A_ne_nil lp hWF
  rw [LP.n]
  cases hA : (equalityForm lp).A with
  | nil => exact absurd hA hne
  | cons r t =>
      have : r ∈ (equalityForm lp).A := by rw [hA]; exact List.mem_cons_self _ _
      rw [List.headD_cons]
      exact eqForm_rows lp hWF r this

theorem eqForm_c_length (lp : LP) (hWF : lp.WF) :
    (equalityForm lp).c.length = eqn lp := by
  obtain ⟨hne, hrows, hb, hc⟩ := hWF
  simp only [equalityForm]
  by_cases he : lp.equality
  · rw [if_pos he, eqn, if_pos he]; exact hc
  · rw [if_neg he, eqn, if_neg he, List.length_append, List.length_replicate, hc, LP.m]

theorem eqForm_WF (lp : LP) (hWF : lp.WF) : (equalityForm lp).WF := by
  refine ⟨eqForm_A_ne_nil lp hWF, ?_, ?_, ?_⟩
  · intro r hr
    rw [eqForm_n lp hWF]
    exact eqForm_rows lp hWF r hr
  · rw [LP.m, eqForm_b_length, eqForm_A_length lp hWF.2.2.1, hWF.2.2.1, LP.m]
  · rw [eqForm_n lp hWF]
    exact eqForm_c_length lp hWF

theorem eqForm_m (lp : LP) (hWF : lp.WF) : (equalityForm lp).m = lp.m := by
  rw [LP.m, eqForm_A_length lp hWF.2.2.1]

/-! ## List index bookkeeping -/

theorem getD_eraseIdx (l : List ℚ) (j i : ℕ) (d : ℚ) :
    (l.eraseIdx j).getD i d = if i < j then l.getD i d else l.getD (i + 1) d := by
  induction l generalizing i j with
  | nil => simp [List.eraseIdx]
  | cons a t ih =>
      cases j with
      | zero => simp [List.eraseIdx]
      | succ j' =>
          cases i with
          | zero => simp [List.eraseIdx]
          | succ i' =>
              simp only [List.eraseIdx, List.getD_cons_succ]
              rw [ih]
              simp [Nat.succ_lt_succ_iff]

theorem getD_map_eraseIdx (M : List (List ℚ)) (j i : ℕ) :
    (M.map (fun row => row.eraseIdx j)).getD i [] = (M.getD i []).eraseIdx j := by
  induction M generalizing i with
  | nil => simp [List.eraseIdx]
  | cons r t ih =>
      cases i with
      | zero => simp
      | succ i' => simpa using ih i'

theorem getD_zero_eq_headD (M : List (List ℚ)) : M.getD 0 [] = M.headD [] := by
  cases M <;> rfl

theorem tail_getD (M : List (List ℚ)) (i : ℕ) : M.tail.getD i [] = M.getD (i + 1) [] := by
  cases M <;> rfl

theorem val_succAbove (m : ℕ) (j : Fin (m + 1)) (k : Fin m) :
    ((j.succAbove k : Fin (m + 1)) : ℕ) = if (k : ℕ) < (j : ℕ) then (k : ℕ) else (k : ℕ) + 1 := by
  rw [Fin.succAbove]
  by_cases h : (k : ℕ) < (j : ℕ)
  · rw [if_pos (by exact (Fin.lt_def).mpr (by simpa using h)), if_pos h]
    rfl
  · rw [if_neg (by rw [Fin.lt_def]; simpa using h), if_neg h]
    rfl

/-- The Laplace expansion `detN` agrees with Mathlib's determinant. -/
theorem detN_eq_det (m : ℕ) : ∀ M : List (List ℚ), detN m M = (matOf m m M).det := by
  induction m with
  | zero => intro M; rw [detN, Matrix.det_isEmpty]
  | succ m ih =>
      intro M
      rw [detN, Matrix.det_succ_row_zero,
        ← Fin.sum_univ_eq_sum_range
          (fun j => (-1 : ℚ) ^ j * (M.headD []).getD j 0 *
            detN m (M.tail.map (fun row => row.eraseIdx j)))]
      refine Finset.sum_congr rfl (fun j _ => ?_)
      have h0 : (M.headD []).getD (j : ℕ) 0 = matOf (m + 1) (m + 1) M 0 j := by
        cases M <;> rfl
      have hsub : matOf m m (M.tail.map (fun row => row.eraseIdx (j : ℕ)))
          = (matOf (m + 1) (m + 1) M).submatrix Fin.succ j.succAbove := by
        funext i k
        rw [matOf, Matrix.of_apply, getD_map_eraseIdx, tail_getD, getD_eraseIdx,
          Matrix.submatrix_apply, matOf, Matrix.of_apply]
        have : ((Fin.succ i : Fin (m + 1)) : ℕ) = (i : ℕ) + 1 := rfl
        rw [this, val_succAbove]
        split <;> rfl
      rw [ih, h0, hsub]

theorem getD_map_range {α : Type} [Inhabited α] (n : ℕ) (g : ℕ → α) (r : ℕ) (d : α) :
    ((List.range n).map g).getD r d = if r < n then g r else d := by
  by_cases h : r < n
  · rw [if_pos h]
    rw [List.getD_eq_getElem _ _ (by simpa using h)]
    simp
  · rw [if_neg h]
    apply List.getD_eq_default
    simpa using h

theorem getD_set (l : List ℚ) (i : ℕ) (v : ℚ) (c : ℕ) :
    (l.set i v).getD c 0 = if c = i ∧ i < l.length then v else l.getD c 0 := by
  induction l generalizing i c with
  | nil => simp
  | cons a t ih =>
      cases i with
      | zero =>
          cases c with
          | zero => simp
          | succ c' => simp
      | succ i' =>
          cases c with
          | zero => simp
          | succ c' =>
              simp only [List.set, List.getD_cons_succ, ih, List.length_cons]
              simp [Nat.succ_lt_succ_iff]

theorem matOf_updateColL (m : ℕ) (M : List (List ℚ)) (b : List ℚ) (j : Fin m)
    (hlen : M.length = m) (hrect : ∀ r ∈ M, r.length = m) :
    matOf m m (updateColL M (j : ℕ) b)
      = (matOf m m M).updateColumn j (fun r => b.getD r 0) := by
  funext r c
  have hr : (r : ℕ) < M.length := by rw [hlen]; exact r.isLt
  have hrow : (M.getD (r : ℕ) []).length = m :=
    hrect _ (by rw [List.getD_eq_getElem _ _ hr]; exact List.getElem_mem hr)
  rw [matOf, Matrix.of_apply, updateColL, getD_map_range _ _ _ _ , if_pos hr, getD_set,
    Matrix.updateColumn_apply, matOf, Matrix.of_apply]
  by_cases hc : c = j
  · subst hc
    rw [if_pos ⟨rfl, by rw [hrow]; exact c.isLt⟩, if_pos rfl]
  · rw [if_neg (fun hand => hc (Fin.ext hand.1)), if_neg hc]

theorem dotL_eq_sum_fin (m : ℕ) (a x : List ℚ) (ha : a.length = m) :
    dotL a x = ∑ j : Fin m, a.getD (j : ℕ) 0 * x.getD (j : ℕ) 0 := by
  rw [dotL, ha, ← Fin.sum_univ_eq_sum_range (fun j => a.getD j 0 * x.getD j 0) m]

/-- Cramer-rule correctness of the embedded `scipy.linalg.solve`: for a
square matrix with nonzero determinant, the returned vector solves the
system row by row. -/
theorem solveL_correct (m : ℕ) (M : List (List ℚ)) (b : List ℚ)
    (hlen : M.length = m) (hrect : ∀ r ∈ M, r.length = m)
    (hdet : detL M ≠ 0) (i : ℕ) (him : i < m) :
    dotL (M.getD i []) (solveL M b) = b.getD i 0 := by
  have hdet2 : (matOf m m M).det ≠ 0 := by
    rw [← detN_eq_det]
    rw [detL, hlen] at hdet
    exact hdet
  set A := matOf m m M with hA
  set bv : Fin m → ℚ := fun r => b.getD (r : ℕ) 0 with hbv
  have hx : ∀ j : Fin m, (solveL M b).getD (j : ℕ) 0 = A.det⁻¹ * Matrix.cramer A bv j := by
    intro j
    rw [solveL, getD_map_range, if_pos (by rw [hlen]; exact j.isLt), hlen]
    rw [detN_eq_det, matOf_updateColL m M b j hlen hrect, detL, hlen, detN_eq_det]
    rw [Matrix.cramer_apply]
    rw [div_eq_inv_mul]
  have hmul : A.mulVec (fun j : Fin m => (solveL M b).getD (j : ℕ) 0) = bv := by
    have : (fun j : Fin m => (solveL M b).getD (j : ℕ) 0)
        = A.det⁻¹ • Matrix.cramer A bv := by
      funext j
      rw [hx j]
      rfl
    rw [this, Matrix.mulVec_smul, Matrix.mulVec_cramer A bv, smul_smul,
      inv_mul_cancel₀ hdet2, one_smul]
  have hrow : (M.getD i []).length = m :=
    hrect _ (by
      rw [List.getD_eq_getElem _ _ (by rw [hlen]; exact him)]
      exact List.getElem_mem (by rw [hlen]; exact him))
  rw [dotL_eq_sum_fin m _ _ hrow]
  have := congrFun hmul ⟨i, him⟩
  rw [Matrix.mulVec, Matrix.dotProduct] at this
  convert this using 1

theorem getD_zerosL (n i : ℕ) : (zerosL n).getD i 0 = 0 := by
  induction n generalizing i with
  | zero => simp [zerosL]
  | succ n ih =>
      cases i with
      | zero => rfl
      | succ i' => simpa [zerosL, List.replicate] using ih i'

theorem zerosL_length (n : ℕ) : (zerosL n).length = n := List.length_replicate n 0

theorem getD_map_row {α β : Type} (f : α → β) (l : List α) (r : ℕ) (hr : r < l.length)
    (d : α) (d' : β) : (l.map f).getD r d' = f (l.getD r d) := by
  rw [List.getD_eq_getElem _ _ (by simpa using hr), List.getD_eq_getElem _ _ hr]
  simp

theorem scatterW_foldl_length (l : List (ℤ × ℚ)) (v : List ℚ) :
    (l.foldl (fun acc pv => acc.set (wrapIdx acc.length pv.1) pv.2) v).length
      = v.length := by
  induction l generalizing v with
  | nil => rfl
  | cons p t ih => rw [List.foldl_cons, ih, List.length_set]

theorem scatterW_length (v : List ℚ) (ps : List ℤ) (vals : List ℚ) :
    (scatterW v ps vals).length = v.length := scatterW_foldl_length _ _

theorem scatterW_cons (v : List ℚ) (q : ℤ) (ps : List ℤ) (w : ℚ) (vals : List ℚ) :
    scatterW v (q :: ps) (w :: vals)
      = scatterW (v.set (wrapIdx v.length q) w) ps vals := rfl

theorem scatterW_nil_left (v : List ℚ) (vals : List ℚ) : scatterW v [] vals = v := rfl

theorem scatterW_nil_right (v : List ℚ) (ps : List ℤ) : scatterW v ps [] = v := by
  cases ps <;> rfl

theorem getD_scatterW_not_mem (v : List ℚ) (ps : List ℤ) (vals : List ℚ) (p : ℕ)
    (hp : p ∉ ps.map (wrapIdx v.length)) :
    (scatterW v ps vals).getD p 0 = v.getD p 0 := by
  induction ps generalizing v vals with
  | nil => rfl
  | cons q t ih =>
      cases vals with
      | nil => rw [scatterW_nil_right]
      | cons w vals' =>
          rw [scatterW_cons]
          have hp1 : p ≠ wrapIdx v.length q := by
            intro h
            apply hp
            rw [List.map_cons, h]
            exact List.mem_cons_self _ _
          have hp2 : p ∉ t.map (wrapIdx (v.set (wrapIdx v.length q) w).length) := by
            rw [List.length_set]
            intro h
            exact hp (by rw [List.map_cons]; exact List.mem_cons_of_mem _ h)
          rw [ih _ _ hp2, getD_set, if_neg (fun hand => hp1 hand.1)]

theorem getD_scatterW_nth (v : List ℚ) (ps : List ℤ) (vals : List ℚ)
    (hnd : (ps.map (wrapIdx v.length)).Nodup) (hlen : vals.length = ps.length)
    (hin : ∀ q ∈ ps, wrapIdx v.length q < v.length) :
    ∀ idx, idx < ps.length →
      (scatterW v ps vals).getD (wrapIdx v.length (ps.getD idx 0)) 0 = vals.getD idx 0 := by
  induction ps generalizing v vals with
  | nil => intro idx h; exact absurd h (by simp)
  | cons q t ih =>
      cases vals with
      | nil => intro idx h; exact absurd hlen (by simp)
      | cons w vals' =>
          intro idx hidx
          rw [scatterW_cons]
          cases idx with
          | zero =>
              have hq : wrapIdx v.length q ∉ t.map (wrapIdx v.length) := by
                rw [List.map_cons] at hnd
                exact (List.nodup_cons.mp hnd).1
              have hq2 : wrapIdx v.length q ∉
                  t.map (wrapIdx (v.set (wrapIdx v.length q) w).length) := by
                rw [List.length_set]; exact hq
              rw [List.getD_cons_zero, List.getD_cons_zero,
                getD_scatterW_not_mem _ _ _ _ hq2, getD_set,
                if_pos ⟨rfl, hin q (List.mem_cons_self _ _)⟩]
          | succ idx' =>
              have hlen2 : vals'.length = t.length := by simpa using hlen
              have hnd2 : (t.map (wrapIdx (v.set (wrapIdx v.length q) w).length)).Nodup := by
                rw [List.length_set]
                rw [List.map_cons] at hnd
                exact (List.nodup_cons.mp hnd).2
              have hin2 : ∀ p ∈ t, wrapIdx (v.set (wrapIdx v.length q) w).length p
                  < (v.set (wrapIdx v.length q) w).length := by
                rw [List.length_set]
                exact fun p hp => hin p (List.mem_cons_of_mem _ hp)
              have := ih (v.set (wrapIdx v.length q) w) vals' hnd2 hlen2 hin2 idx'
                (by simpa using Nat.lt_of_succ_lt_succ hidx)
              rw [List.getD_cons_succ, List.getD_cons_succ]
              rw [List.length_set] at this
              exact this

theorem dotL_congr_right (a b1 b2 : List ℚ)
    (h : ∀ j, j < a.length → b1.getD j 0 = b2.getD j 0) : dotL a b1 = dotL a b2 := by
  rw [dotL, dotL]
  exact Finset.sum_congr rfl (fun j hj => by rw [h j (Finset.mem_range.mp hj)])

theorem getD_mem_row (A : List (List ℚ)) (r : ℕ) (hr : r < A.length) :
    A.getD r [] ∈ A := by
  rw [List.getD_eq_getElem _ _ hr]
  exact List.getElem_mem hr

theorem colsel_length (A : List (List ℚ)) (B : List ℤ) :
    (colsel A B).length = A.length := List.length_map _ _

theorem colsel_rows (A : List (List ℚ)) (B : List ℤ) :
    ∀ r ∈ colsel A B, r.length = B.length := by
  intro r hr
  rcases List.mem_map.mp hr with ⟨q, _, rfl⟩
  exact List.length_map _ _

theorem colsel_getD (A : List (List ℚ)) (B : List ℤ) (r : ℕ) (hr : r < A.length) :
    (colsel A B).getD r [] = B.map (fun j => wrapGet (A.getD r []) j) := by
  rw [colsel, getD_map_row _ _ _ hr []]

theorem invertible_square (A : List (List ℚ)) (Bs : List ℤ) (hne : A ≠ [])
    (h : invertible (colsel A Bs) = true) :
    A.length = Bs.length ∧ detL (colsel A Bs) ≠ 0 := by
  rw [invertible, Bool.and_eq_true, beq_iff_eq, Bool.not_eq_true'] at h
  obtain ⟨h1, h2⟩ := h
  have hhead : ((colsel A Bs).headD []).length = Bs.length := by
    cases A with
    | nil => exact absurd rfl hne
    | cons r t => simp [colsel]
  constructor
  · rw [← colsel_length A Bs, h1, hhead]
  · intro hz
    rw [hz] at h2
    simp at h2

theorem matOf_colsel (n m : ℕ) (A : List (List ℚ)) (Bs : List ℤ)
    (hlen : A.length = m) (hrect : ∀ r ∈ A, r.length = n) (hBs : Bs.length = m)
    (r k : Fin m) :
    matOf m m (colsel A Bs) r k
      = (A.getD (r : ℕ) []).getD (wrapIdx n (Bs.getD (k : ℕ) 0)) 0 := by
  have hr : (r : ℕ) < A.length := by rw [hlen]; exact r.isLt
  have hk : (k : ℕ) < Bs.length := by rw [hBs]; exact k.isLt
  rw [matOf, Matrix.of_apply, colsel_getD A Bs _ hr,
    getD_map_row _ _ _ hk 0 0, wrapGet, hrect _ (getD_mem_row A _ hr)]

theorem wraps_nodup (n m : ℕ) (A : List (List ℚ)) (Bs : List ℤ)
    (hlen : A.length = m) (hrect : ∀ r ∈ A, r.length = n) (hBs : Bs.length = m)
    (hdet : detL (colsel A Bs) ≠ 0) : (Bs.map (wrapIdx n)).Nodup := by
  have hdet2 : (matOf m m (colsel A Bs)).det ≠ 0 := by
    rw [← detN_eq_det]
    rw [detL, colsel_length, hlen] at hdet
    exact hdet
  rw [List.nodup_iff_injective_get]
  intro k1 k2 heq
  by_contra hne
  have hmlen : (Bs.map (wrapIdx n)).length = m := by rw [List.length_map, hBs]
  have f1 : Fin m := ⟨(k1 : ℕ), by rw [← hmlen]; exact k1.isLt⟩
  apply hdet2
  refine Matrix.det_zero_of_column_eq
    (i := ⟨(k1 : ℕ), by rw [← hmlen]; exact k1.isLt⟩)
    (j := ⟨(k2 : ℕ), by rw [← hmlen]; exact k2.isLt⟩) ?_ ?_
  · intro hc
    have hv := congrArg Fin.val hc
    exact hne (Fin.ext (by simpa using hv))
  · intro r
    rw [matOf_colsel n m A Bs hlen hrect hBs, matOf_colsel n m A Bs hlen hrect hBs]
    have hg : ∀ kk : Fin (Bs.map (wrapIdx n)).length,
        wrapIdx n (Bs.getD (kk : ℕ) 0) = (Bs.map (wrapIdx n)).get kk := by
      intro kk
      have hkk : (kk : ℕ) < Bs.length := by simpa using kk.isLt
      rw [List.get_eq_getElem, List.getElem_map, List.getD_eq_getElem _ _ hkk]
    have h1 := hg k1
    have h2 := hg k2
    simp only [Fin.val_mk]
    rw [h1, h2, heq]

/-! ## Properties of `equalityForm` (claim C2) -/

theorem eqForm_b_nonneg (lp : LP) : ∀ v ∈ (equalityForm lp).b, 0 ≤ v := by
  intro v hv
  simp only [equalityForm] at hv
  rcases List.mem_map.mp hv with ⟨w, _, rfl⟩
  by_cases h : w < 0 <;> simp [h] <;> linarith

theorem eqForm_fix (L : LP) (heq : L.equality = true) (hb : ∀ v ∈ L.b, 0 ≤ v)
    (hlen : L.A.length ≤ L.b.length) : equalityForm L = L := by
  obtain ⟨A, b, c, eq⟩ := L
  simp only [LP.equality] at heq
  subst heq
  simp only [LP.b] at hb
  simp only [LP.A, LP.b] at hlen
  simp only [equalityForm, if_pos rfl, if_true, LP.mk.injEq, and_true]
  refine ⟨?_, ?_⟩
  · have : ∀ p ∈ A.zip b, (if p.2 < 0 then p.1.map (fun v => -v) else p.1) = Prod.fst p := by
      intro p hp
      have h2 := (List.of_mem_zip hp).2
      have := hb _ h2
      simp [not_lt.mpr this, not_lt_of_le this]
    rw [List.map_congr_left this, List.map_fst_zip _ _ hlen]
  · have : ∀ v ∈ b, (if v < 0 then -v else v) = id v := by
      intro v hv
      simp [not_lt_of_le (hb v hv)]
    rw [List.map_congr_left this, List.map_id]

/-- C2: `equality_form` is idempotent — applying it twice yields the same
`A`, `b`, `c` (indeed the same LP) as applying it once — and its result
always has `equality = true` and an elementwise nonnegative `b`. -/
theorem C2_equality_form_idempotent (lp : LP) :
    equalityForm (equalityForm lp) = equalityForm lp ∧
      (equalityForm lp).equality = true ∧ ∀ v ∈ (equalityForm lp).b, 0 ≤ v := by
  refine ⟨?_, rfl, eqForm_b_nonneg lp⟩
  apply eqForm_fix _ rfl (eqForm_b_nonneg lp)
  simp only [equalityForm, List.length_map, List.length_zip]
  exact le_trans (min_le_right _ _) (le_of_eq rfl)

/-! ## Claim C1: correctness of returned basic feasible solutions -/

theorem mem_sortInts (B : List ℤ) (q : ℤ) : q ∈ sortInts B ↔ q ∈ B :=
  (List.perm_insertionSort (· ≤ ·) B).mem_iff

theorem sortInts_length (B : List ℤ) : (sortInts B).length = B.length :=
  (List.perm_insertionSort (· ≤ ·) B).length_eq

/-- Success characterization of `getBasicFeasibleSol`: the guard passed and
the result is the scattered Cramer solution, with all entries `≥ -tol`. -/
theorem getBasicFeasibleSol_ok (lp : LP) (B : List ℤ) (tol : ℚ) (x : List ℚ)
    (hok : getBasicFeasibleSol lp B tol = .ok x) :
    (∃ last, (sortInts B).getLast? = some last ∧
        last < (((equalityForm lp).n : ℕ) : ℤ)) ∧
      invertible (colsel (equalityForm lp).A (sortInts B)) = true ∧
      x = scatterW (zerosL (equalityForm lp).n) (sortInts B)
        (solveL (colsel (equalityForm lp).A (sortInts B)) (equalityForm lp).b) ∧
      x.all (fun v => decide (-tol ≤ v)) = true := by
  rw [getBasicFeasibleSol] at hok
  split at hok
  · cases hok
  · rename_i last hlast
    split at hok
    · rename_i hlt
      split at hok
      · split at hok
        · rename_i hinv
          split at hok
          · rename_i hall
            injection hok with hx
            subst hx
            exact ⟨⟨last, hlast, hlt⟩, hinv, rfl, hall⟩
          · cases hok
        · cases hok
      · cases hok
    · cases hok

/-- C1: whenever `getBasicFeasibleSol` returns a vector `x` for a basis `B`
of in-range indices (the data model's notion of basis), the basic part of
`x` solves `A_B x_B = b` within tolerance (indeed exactly), every nonbasic
component of `x` is exactly `0`, and every component is at least `-tol`. -/
theorem C1_bfs_correct (lp : LP) (B : List ℤ) (tol : ℚ) (x : List ℚ)
    (hWF : lp.WF) (htol : 0 ≤ tol)
    (hrange : ∀ i ∈ B, 0 ≤ i ∧ i < (((equalityForm lp).n : ℕ) : ℤ))
    (hok : getBasicFeasibleSol lp B tol = .ok x) :
    (∀ r, r < (equalityForm lp).m →
      |dotL ((colsel (equalityForm lp).A (sortInts B)).getD r [])
          ((sortInts B).map (fun i => wrapGet x i))
        - (equalityForm lp).b.getD r 0| ≤ tol) ∧
    (∀ j, j < (equalityForm lp).n → Int.ofNat j ∉ B → x.getD j 0 = 0) ∧
    (∀ v ∈ x, -tol ≤ v) := by
  obtain ⟨hneE, hrowsE, hbE, hcE⟩ := eqForm_WF lp hWF
  obtain ⟨⟨last, hlast, hltn⟩, hinv, hx, hall⟩ := getBasicFeasibleSol_ok lp B tol x hok
  set lpE := equalityForm lp with hlpE
  set n := lpE.n with hn
  set Bs := sortInts B with hBsdef
  have hsq := invertible_square lpE.A Bs hneE hinv
  set m := lpE.A.length with hm
  have hBsm : Bs.length = m := hsq.1.symm
  have hdet : detL (colsel lpE.A Bs) ≠ 0 := hsq.2
  have hrangeBs : ∀ q ∈ Bs, 0 ≤ q ∧ q < ((n : ℕ) : ℤ) := by
    intro q hq
    exact hrange q ((mem_sortInts B q).mp hq)
  have hinw : ∀ q ∈ Bs, wrapIdx n q < n := by
    intro q hq
    obtain ⟨h0, h1⟩ := hrangeBs q hq
    rw [wrapIdx, if_neg (not_lt.mpr h0)]
    omega
  have hnd : (Bs.map (wrapIdx n)).Nodup :=
    wraps_nodup n m lpE.A Bs rfl hrowsE hBsm hdet
  set sol := solveL (colsel lpE.A Bs) lpE.b with hsol
  have hsollen : sol.length = m := by
    rw [hsol, solveL, List.length_map, List.length_range, colsel_length]
  have hxlen : x.length = n := by
    rw [hx, scatterW_length, zerosL_length]
  have hznd : (zerosL n).length = n := zerosL_length n
  refine ⟨?_, ?_, ?_⟩
  · intro r hr
    have hMlen : (colsel lpE.A Bs).length = m := colsel_length _ _
    have hMrows : ∀ rr ∈ colsel lpE.A Bs, rr.length = m := by
      intro rr hrr
      rw [colsel_rows lpE.A Bs rr hrr, hBsm]
    have hsolve := solveL_correct m (colsel lpE.A Bs) lpE.b hMlen hMrows hdet r
      (by rwa [LP.m, ← hm] at hr)
    have hrowlen : ((colsel lpE.A Bs).getD r []).length = Bs.length := by
      rw [colsel_rows lpE.A Bs _ (getD_mem_row _ _ (by rwa [hMlen, hm, ← LP.m]))]
    have hdots : dotL ((colsel lpE.A Bs).getD r []) (Bs.map (fun i => wrapGet x i))
        = dotL ((colsel lpE.A Bs).getD r []) sol := by
      apply dotL_congr_right
      intro j hj
      rw [hrowlen] at hj
      rw [getD_map_row _ _ _ hj 0 0]
      rw [wrapGet, hxlen, hx]
      have := getD_scatterW_nth (zerosL n) Bs sol
        (by rwa [hznd]) (by rw [hsollen, hBsm]) (by rw [hznd]; exact hinw) j hj
      rw [hznd] at this
      exact this
    rw [hdots, hsolve]
    simpa using htol
  · intro j hj hjB
    have hjw : j ∉ Bs.map (wrapIdx n) := by
      intro hmem
      rcases List.mem_map.mp hmem with ⟨q, hq, hqe⟩
      obtain ⟨h0, h1⟩ := hrangeBs q hq
      apply hjB
      have hq2 : q.toNat = j := by rwa [wrapIdx, if_neg (not_lt.mpr h0)] at hqe
      have : q = Int.ofNat j := by
        rw [← hq2, Int.ofNat_eq_coe]
        exact (Int.toNat_of_nonneg h0).symm
      rw [← this]
      exact (mem_sortInts B q).mp hq
    rw [hx]
    have := getD_scatterW_not_mem (zerosL n) Bs sol j (by rwa [hznd])
    rw [this, getD_zerosL]
  · intro v hv
    exact of_decide_eq_true (List.all_eq_true.mp hall _ hv)

unseal Rat.mul Rat.add Rat.sub Rat.inv in
/-- Witness for `C1_bfs_correct` on the 2×2 identity equality LP with basis
`[0, 1]`. -/
theorem C1_bfs_correct_witness :
    (∀ r, r < (equalityForm ⟨[[1, 0], [0, 1]], [1, 1], [0, 0], true⟩).m →
      |dotL ((colsel (equalityForm ⟨[[1, 0], [0, 1]], [1, 1], [0, 0], true⟩).A
            (sortInts [0, 1])).getD r [])
          ((sortInts [0, 1]).map (fun i => wrapGet [1, 1] i))
        - (equalityForm ⟨[[1, 0], [0, 1]], [1, 1], [0, 0], true⟩).b.getD r 0| ≤ defaultTol) ∧
    (∀ j, j < (equalityForm ⟨[[1, 0], [0, 1]], [1, 1], [0, 0], true⟩).n →
      Int.ofNat j ∉ ([0, 1] : List ℤ) → ([1, 1] : List ℚ).getD j 0 = 0) ∧
    (∀ v ∈ ([1, 1] : List ℚ), -defaultTol ≤ v) :=
  C1_bfs_correct ⟨[[1, 0], [0, 1]], [1, 1], [0, 0], true⟩ [0, 1] defaultTol [1, 1]
    (by decide) (by decide) (by decide) (by decide)

/-! ## Claims C6 and C7: `InvalidBasis` and `InvalidPivotRule` -/

theorem sortInts_eq_nil_iff (B : List ℤ) : sortInts B = [] ↔ B = [] := by
  constructor
  · intro h
    have := (List.perm_insertionSort (· ≤ ·) B).length_eq
    rw [sortInts] at h
    rw [h] at this
    exact List.length_eq_zero.mp this.symm
  · intro h; subst h; rfl

unseal Rat.mul Rat.add Rat.sub Rat.inv in
/-- C6 counterexample: the claim says a basis containing an index outside
`0..n-1` (here `-1 < 0`) makes `getBasicFeasibleSol` raise `InvalidBasis`;
on the 2×2 identity equality LP it instead *returns* a solution, because
numpy wraps the in-range negative index around. -/
theorem C6_counterexample :
    getBasicFeasibleSol ⟨[[1, 0], [0, 1]], [1, 1], [0, 0], true⟩ [-1, 0] defaultTol
        = .ok [1, 1] ∧
      ¬ (0 : ℤ) ≤ -1 := by
  constructor
  · decide
  · decide

/-- C6 (amended): `getBasicFeasibleSol` raises `InvalidBasis` exactly when
the proposed basis is nonempty and either its largest (sorted) index is
`≥ n`, or all its indices lie in numpy's wrap range (`-n ≤ i`) and the
wrapped column submatrix `A[:, B]` is not invertible (wrong-size bases fail
this invertibility test).  In-range *negative* indices wrap around instead
of raising, an index below `-n` raises numpy's `IndexError` while building
`A[:, B]`, and an *empty* basis raises `IndexError` at `B[-1]`. -/
theorem C6_invalid_basis_iff (lp : LP) (B : List ℤ) (tol : ℚ) :
    getBasicFeasibleSol lp B tol = .error (.invalidBasis (sortInts B)) ↔
      B ≠ [] ∧
        (¬ ((sortInts B).getLast?).getD 0 < (((equalityForm lp).n : ℕ) : ℤ) ∨
          ((sortInts B).all (fun i => -(((equalityForm lp).n : ℕ) : ℤ) ≤ i) = true ∧
            ¬ invertible (colsel (equalityForm lp).A (sortInts B)) = true)) := by
  unfold getBasicFeasibleSol
  cases hB : (sortInts B).getLast? with
  | none =>
      simp only [hB]
      have hBnil : B = [] := by
        rcases List.getLast?_eq_none_iff.mp hB with h
        exact (sortInts_eq_nil_iff B).mp h
      simp [hBnil]
  | some l =>
      have hBne : B ≠ [] := by
        intro h
        subst h
        simp [sortInts, List.insertionSort] at hB
      simp only [hB, Option.getD_some]
      by_cases hlt : l < (((equalityForm lp).n : ℕ) : ℤ)
      · rw [if_pos hlt]
        by_cases hrng : ((sortInts B).all
            (fun i => -(((equalityForm lp).n : ℕ) : ℤ) ≤ i)) = true
        · rw [if_pos hrng]
          by_cases hinv : invertible (colsel (equalityForm lp).A (sortInts B)) = true
          · rw [if_pos hinv]
            by_cases hall : ((bfsCandidate lp B).all (fun v => -tol ≤ v)) = true
            · rw [if_pos hall]
              simp [hBne, hlt, hrng, hinv]
            · rw [if_neg hall]
              simp [hBne, hlt, hrng, hinv]
          · rw [if_neg hinv]
            simp [hBne, hlt, hrng, hinv]
        · rw [if_neg hrng]
          simp [hBne, hlt, hrng]
      · rw [if_neg hlt]
        simp [hBne, hlt]

/-- C7 counterexample: the claim says an unrecognised pivot rule fails with
a kind distinguishable from the generic `ValueError`; the source instead
raises a plain `ValueError` (distinguished only by its message). -/
theorem C7_counterexample :
    simplexIteration ⟨[[1]], [1], [1], true⟩ [] [] "foo" 0 0
        = .error (.valueError invalidPivotMsg) ∧
      isValueError (.valueError invalidPivotMsg) = true := by
  constructor
  · rw [simplexIteration, if_neg (by decide)]
  · rfl

/-- C7 (amended): every pivot-rule string outside the recognised set makes
`simplexIteration` fail, but with the generic `ValueError` kind (message
`Invalid pivot rule. ...`), not a distinct `InvalidPivotRule` kind. -/
theorem C7_invalid_rule_value_error (lp : LP) (x : List ℚ) (B : List ℤ)
    (rule : String) (tol : ℚ) (uin : ℤ) (h : rule ∉ pivotRules) :
    simplexIteration lp x B rule tol uin = .error (.valueError invalidPivotMsg) := by
  rw [simplexIteration, if_neg h]

/-- Witness for `C7_invalid_rule_value_error` at the concrete rule "foo". -/
theorem C7_invalid_rule_value_error_witness :
    simplexIteration ⟨[[1]], [1], [1], true⟩ [] [] "foo" 0 0
        = .error (.valueError invalidPivotMsg) :=
  C7_invalid_rule_value_error _ _ _ _ _ _ (by decide)

/-! ## Claim C8: the `greatest_ascent` tie-break -/

theorem getLast?_cons_of_ne_nil {α : Type} (a : α) (l : List α) (h : l ≠ []) :
    (a :: l).getLast? = l.getLast? := by
  cases l with
  | nil => exact absurd rfl h
  | cons b t => rfl

theorem foldl_lastArgmax_spec (inc : ℕ → ℚ) :
    ∀ (ks : List ℕ) (b : ℕ),
      (ks.foldl (fun best k => if inc best ≤ inc k then k else best) b) ∈ b :: ks ∧
      (∀ k ∈ b :: ks,
        inc k ≤ inc (ks.foldl (fun best k => if inc best ≤ inc k then k else best) b)) ∧
      ((b :: ks).filter
          (fun k => inc k = inc (ks.foldl (fun best k => if inc best ≤ inc k then k else best) b))).getLast?
        = some (ks.foldl (fun best k => if inc best ≤ inc k then k else best) b) := by
  intro ks
  induction ks with
  | nil =>
      intro b
      refine ⟨List.mem_cons_self _ _, ?_, ?_⟩
      · intro k hk
        rcases List.mem_cons.mp hk with rfl | h
        · exact le_refl _
        · cases h
      · simp
  | cons k0 t ih =>
      intro b
      rw [List.foldl_cons]
      by_cases hcmp : inc b ≤ inc k0
      · rw [if_pos hcmp]
        obtain ⟨hmem, hbound, hlast⟩ := ih k0
        refine ⟨?_, ?_, ?_⟩
        · rcases List.mem_cons.mp hmem with h | h
          · rw [h]; exact List.mem_cons_of_mem _ (List.mem_cons_self _ _)
          · exact List.mem_cons_of_mem _ (List.mem_cons_of_mem _ h)
        · intro k hk
          rcases List.mem_cons.mp hk with rfl | h
          · exact le_trans hcmp (hbound k0 (List.mem_cons_self _ _))
          · exact hbound k h
        · set r := t.foldl (fun best k => if inc best ≤ inc k then k else best) k0 with hr
          have hne2 : ((k0 :: t).filter (fun k => decide (inc k = inc r))) ≠ [] := by
            intro hnil
            rw [hnil] at hlast
            cases hlast
          rw [List.filter_cons]
          by_cases hb : inc b = inc r
          · rw [if_pos (by simpa using hb)]
            rw [getLast?_cons_of_ne_nil _ _ hne2]
            exact hlast
          · rw [if_neg (by simpa using hb)]
            exact hlast
      · rw [if_neg hcmp]
        obtain ⟨hmem, hbound, hlast⟩ := ih b
        have hk0top : inc k0 < inc b := lt_of_not_le hcmp
        refine ⟨?_, ?_, ?_⟩
        · rcases List.mem_cons.mp hmem with h | h
          · rw [h]; exact List.mem_cons_self _ _
          · exact List.mem_cons_of_mem _ (List.mem_cons_of_mem _ h)
        · intro k hk
          rcases List.mem_cons.mp hk with rfl | h
          · exact hbound k (List.mem_cons_self _ _)
          · rcases List.mem_cons.mp h with rfl | h2
            · exact le_trans (le_of_lt hk0top) (hbound b (List.mem_cons_self _ _))
            · exact hbound k (List.mem_cons_of_mem _ h2)
        · set r := t.foldl (fun best k => if inc best ≤ inc k then k else best) b with hr
          have hbr : inc b ≤ inc r := hbound b (List.mem_cons_self _ _)
          have hk0r : inc k0 ≠ inc r := ne_of_lt (lt_of_lt_of_le hk0top hbr)
          rw [List.filter_cons]
          by_cases hb : inc b = inc r
          · rw [if_pos (by simpa using hb)]
            rw [List.filter_cons, if_neg (by simpa using hk0r)]
            rw [List.filter_cons, if_pos (by simpa using hb)] at hlast
            exact hlast
          · rw [if_neg (by simpa using hb)]
            rw [List.filter_cons, if_neg (by simpa using hk0r)]
            rw [List.filter_cons, if_neg (by simpa using hb)] at hlast
            exact hlast

theorem lastArgmaxBy_spec (inc : ℕ → ℚ) (ks : List ℕ) (hne : ks ≠ []) :
    lastArgmaxBy inc ks ∈ ks ∧ (∀ k ∈ ks, inc k ≤ inc (lastArgmaxBy inc ks)) ∧
      (ks.filter (fun k => inc k = inc (lastArgmaxBy inc ks))).getLast?
        = some (lastArgmaxBy inc ks) := by
  cases ks with
  | nil => exact absurd rfl hne
  | cons k0 t =>
      obtain ⟨hmem, hbound, hlast⟩ := foldl_lastArgmax_spec inc (k0 :: t) k0
      have hdup : ∀ x, x ∈ k0 :: k0 :: t ↔ x ∈ k0 :: t := by
        intro x
        constructor
        · intro h
          rcases List.mem_cons.mp h with rfl | h2
          · exact List.mem_cons_self _ _
          · exact h2
        · intro h; exact List.mem_cons_of_mem _ h
      have hhead : (k0 :: t).headD 0 = k0 := rfl
      refine ⟨?_, ?_, ?_⟩
      · rw [lastArgmaxBy, hhead]
        exact (hdup _).mp hmem
      · intro k hk
        rw [lastArgmaxBy, hhead]
        exact hbound k (List.mem_cons_of_mem _ hk)
      · rw [lastArgmaxBy, hhead]
        set r := (k0 :: t).foldl (fun best k => if inc best ≤ inc k then k else best) k0
        rw [List.filter_cons] at hlast
        by_cases hb : inc k0 = inc r
        · rw [if_pos (by simpa using hb)] at hlast
          have hne2 : ((k0 :: t).filter (fun k => decide (inc k = inc r))) ≠ [] := by
            have : k0 ∈ (k0 :: t).filter (fun k => decide (inc k = inc r)) :=
              List.mem_filter.mpr ⟨List.mem_cons_self _ _, by simpa using hb⟩
            exact List.ne_nil_of_mem this
          rw [getLast?_cons_of_ne_nil _ _ hne2] at hlast
          exact hlast
        · rw [if_neg (by simpa using hb)] at hlast
          exact hlast

theorem lookup_none_iff {α : Type} (l : List (ℚ × α)) (key : ℚ) :
    l.lookup key = none ↔ key ∉ l.map Prod.fst := by
  induction l with
  | nil => simp
  | cons p t ih =>
      obtain ⟨k, b⟩ := p
      rw [List.lookup]
      cases hbe : key == k with
      | true =>
          simp only []
          constructor
          · intro h; cases h
          · intro h
            exact absurd (by rw [List.map_cons]; exact (beq_iff_eq.mp hbe) ▸ List.mem_cons_self _ _) h
      | false =>
          simp only []
          rw [ih]
          have hne : key ≠ k := by
            intro h; rw [h] at hbe; simp at hbe
          simp [hne]

theorem keys_assocPut {α : Type} (l : List (ℚ × α)) (key : ℚ) (v : α) (key' : ℚ) :
    key' ∈ (assocPut l key v).map Prod.fst ↔ key' = key ∨ key' ∈ l.map Prod.fst := by
  rw [assocPut]
  by_cases hany : l.any (fun p => p.1 == key) = true
  · rw [if_pos hany]
    rcases List.any_eq_true.mp hany with ⟨p0, hp0, hp0e⟩
    constructor
    · intro h
      rcases List.mem_map.mp h with ⟨q, hq, hqe⟩
      rcases List.mem_map.mp hq with ⟨p, hp, hpe⟩
      by_cases hpk : p.1 == key
      · rw [if_pos hpk] at hpe
        left
        rw [← hqe, ← hpe]
      · rw [if_neg (by simpa using hpk)] at hpe
        right
        rw [← hqe, ← hpe]
        exact List.mem_map_of_mem _ hp
    · intro h
      rcases h with rfl | h
      · refine List.mem_map.mpr ⟨(key', v), ?_, rfl⟩
        exact List.mem_map.mpr ⟨p0, hp0, by rw [if_pos hp0e]⟩
      · rcases List.mem_map.mp h with ⟨p, hp, hpe⟩
        by_cases hpk : p.1 == key
        · have hkk : key' = key := by rw [← hpe]; exact beq_iff_eq.mp hpk
          subst hkk
          refine List.mem_map.mpr ⟨(key', v), ?_, rfl⟩
          exact List.mem_map.mpr ⟨p, hp, by rw [if_pos hpk]⟩
        · refine List.mem_map.mpr ⟨p, ?_, hpe⟩
          exact List.mem_map.mpr ⟨p, hp, by rw [if_neg hpk]⟩
  · rw [if_neg hany]
    rw [List.map_append]
    simp only [List.map_cons, List.map_nil, List.mem_append, List.mem_singleton]
    tauto

theorem nodup_keys_assocPut {α : Type} (l : List (ℚ × α)) (key : ℚ) (v : α)
    (hnd : (l.map Prod.fst).Nodup) : ((assocPut l key v).map Prod.fst).Nodup := by
  rw [assocPut]
  by_cases hany : l.any (fun p => p.1 == key) = true
  · rw [if_pos hany]
    have hmf : (l.map (fun p => if p.1 == key then (key, v) else p)).map Prod.fst
        = l.map Prod.fst := by
      rw [List.map_map]
      refine List.map_congr_left (fun p _ => ?_)
      by_cases h : p.1 == key
      · simp only [Function.comp_apply, if_pos h]
        exact (beq_iff_eq.mp h).symm
      · simp only [Function.comp_apply, if_neg h]
    rw [hmf]
    exact hnd
  · rw [if_neg hany]
    rw [List.map_append]
    rw [List.nodup_append]
    refine ⟨hnd, by simp, ?_⟩
    intro a ha hb
    simp only [List.map_cons, List.map_nil, List.mem_singleton] at hb
    have hlk : key ∉ l.map Prod.fst := by
      intro hmem
      rcases List.mem_map.mp hmem with ⟨p, hp, hpe⟩
      have : l.any (fun p => p.1 == key) = true :=
        List.any_eq_true.mpr ⟨p, hp, by rw [hpe]; exact beq_self_eq_true key⟩
      exact hany this
    rw [hb] at ha
    exact hlk ha

theorem lookup_cons {α : Type} (k : ℚ) (b : α) (t : List (ℚ × α)) (key' : ℚ) :
    ((k, b) :: t).lookup key' = if key' = k then some b else t.lookup key' := by
  rw [List.lookup]
  cases hbe : key' == k with
  | true =>
      simp only []
      rw [if_pos (beq_iff_eq.mp hbe)]
  | false =>
      simp only []
      rw [if_neg (by simpa using hbe)]

theorem lookup_map_replace {α : Type} :
    ∀ (l : List (ℚ × α)) (key : ℚ) (v : α) (key' : ℚ),
      (l.map Prod.fst).Nodup → l.any (fun p => p.1 == key) = true →
      (l.map (fun p => if p.1 == key then (key, v) else p)).lookup key'
        = if key' = key then some v else l.lookup key' := by
  intro l
  induction l with
  | nil => intro key v key' _ hany; simp at hany
  | cons p t ih =>
      intro key v key' hnd hany
      obtain ⟨k, b⟩ := p
      rw [List.map_cons]
      by_cases hk : (k == key) = true
      · have hrep : (if ((k, b) : ℚ × α).1 == key then (key, v) else (k, b)) = (key, v) := by
          rw [if_pos hk]
        have hkey : k = key := beq_iff_eq.mp hk
        have hknd : key ∉ t.map Prod.fst := by
          rw [List.map_cons] at hnd
          have h1 := (List.nodup_cons.mp hnd).1
          rw [hkey] at h1
          exact h1
        have htid : t.map (fun p => if p.1 == key then (key, v) else p) = t := by
          have h1 : ∀ q ∈ t, (if q.1 == key then (key, v) else q) = id q := by
            intro q hq
            rw [if_neg]
            · rfl
            · intro hqk
              exact hknd (List.mem_map.mpr ⟨q, hq, beq_iff_eq.mp hqk⟩)
          rw [List.map_congr_left h1, List.map_id]
        rw [hrep, htid, lookup_cons, lookup_cons]
        by_cases hkk : key' = key
        · rw [if_pos hkk, if_pos hkk]
        · rw [if_neg hkk, if_neg hkk, if_neg (by rw [hkey]; exact hkk)]
      · have hrep : (if ((k, b) : ℚ × α).1 == key then (key, v) else (k, b)) = (k, b) := by
          rw [if_neg hk]
        have hanyt : t.any (fun p => p.1 == key) = true := by
          rcases List.any_eq_true.mp hany with ⟨q, hq, hqe⟩
          rcases List.mem_cons.mp hq with rfl | hqt
          · exact absurd hqe hk
          · exact List.any_eq_true.mpr ⟨q, hqt, hqe⟩
        have hndt : (t.map Prod.fst).Nodup := by
          rw [List.map_cons] at hnd
          exact (List.nodup_cons.mp hnd).2
        rw [hrep, lookup_cons, lookup_cons, ih key v key' hndt hanyt]
        have hkne : k ≠ key := by simpa using hk
        by_cases hk' : key' = k
        · rw [if_pos hk', if_pos hk', if_neg (by rw [hk']; exact hkne)]
        · rw [if_neg hk', if_neg hk']

theorem lookup_assocPut {α : Type} (l : List (ℚ × α)) (key : ℚ) (v : α) (key' : ℚ)
    (hnd : (l.map Prod.fst).Nodup) :
    (assocPut l key v).lookup key' = if key' = key then some v else l.lookup key' := by
  rw [assocPut]
  by_cases hany : l.any (fun p => p.1 == key) = true
  · rw [if_pos hany]
    exact lookup_map_replace l key v key' hnd hany
  · rw [if_neg hany]
    have hknd : key ∉ l.map Prod.fst := by
      intro hmem
      rcases List.mem_map.mp hmem with ⟨p, hp, hpe⟩
      exact hany (List.any_eq_true.mpr ⟨p, hp, by rw [hpe]; exact beq_self_eq_true key⟩)
    induction l with
    | nil => rw [List.nil_append, lookup_cons, List.lookup]
    | cons p t ih2 =>
        obtain ⟨k, b⟩ := p
        rw [List.cons_append, lookup_cons, lookup_cons]
        have hnd2 : (t.map Prod.fst).Nodup := by
          rw [List.map_cons] at hnd
          exact (List.nodup_cons.mp hnd).2
        have hany2 : ¬t.any (fun p => p.1 == key) = true := by
          intro h
          rcases List.any_eq_true.mp h with ⟨q, hq, hqe⟩
          exact hany (List.any_eq_true.mpr ⟨q, List.mem_cons_of_mem _ hq, hqe⟩)
        have hknd2 : key ∉ t.map Prod.fst := by
          intro h
          exact hknd (by rw [List.map_cons]; exact List.mem_cons_of_mem _ h)
        have hkne : k ≠ key := by
          intro h
          exact hknd (by rw [List.map_cons, h]; exact List.mem_cons_self _ _)
        rw [ih2 hnd2 hany2 hknd2]
        by_cases hk' : key' = k
        · simp [hk', hkne]
        · simp only [if_neg hk']

theorem foldl_max_spec : ∀ (l : List ℚ) (b : ℚ),
    l.foldl max b ∈ b :: l ∧ ∀ x ∈ b :: l, x ≤ l.foldl max b := by
  intro l
  induction l with
  | nil =>
      intro b
      refine ⟨List.mem_cons_self _ _, ?_⟩
      intro x hx
      rcases List.mem_cons.mp hx with rfl | h
      · exact le_refl _
      · cases h
  | cons a t ih =>
      intro b
      rw [List.foldl_cons]
      obtain ⟨hmem, hbound⟩ := ih (max b a)
      refine ⟨?_, ?_⟩
      · rcases List.mem_cons.mp hmem with h | h
        · rcases max_choice b a with h2 | h2
          · rw [h, h2]; exact List.mem_cons_self _ _
          · rw [h, h2]; exact List.mem_cons_of_mem _ (List.mem_cons_self _ _)
        · exact List.mem_cons_of_mem _ (List.mem_cons_of_mem _ h)
      · intro x hx
        rcases List.mem_cons.mp hx with rfl | h
        · exact le_trans (le_max_left _ _) (hbound _ (List.mem_cons_self _ _))
        · rcases List.mem_cons.mp h with rfl | h2
          · exact le_trans (le_max_right _ _) (hbound _ (List.mem_cons_self _ _))
          · exact hbound x (List.mem_cons_of_mem _ h2)

theorem maxKeyQ_spec {α : Type} (l : List (ℚ × α)) (hne : l ≠ []) :
    maxKeyQ l ∈ l.map Prod.fst ∧ ∀ x ∈ l.map Prod.fst, x ≤ maxKeyQ l := by
  have hkeysne : l.map Prod.fst ≠ [] := by
    intro h
    exact hne (List.map_eq_nil.mp h)
  obtain ⟨hmem, hbound⟩ := foldl_max_spec (l.map Prod.fst) ((l.map Prod.fst).headD 0)
  have hhead : (l.map Prod.fst).headD 0 ∈ l.map Prod.fst := by
    cases h : l.map Prod.fst with
    | nil => exact absurd h hkeysne
    | cons a t => rw [List.headD_cons]; exact List.mem_cons_self _ _
  refine ⟨?_, ?_⟩
  · rw [maxKeyQ]
    rcases List.mem_cons.mp hmem with h | h
    · rw [h]; exact hhead
    · exact h
  · intro x hx
    rw [maxKeyQ]
    exact hbound x (List.mem_cons_of_mem _ hx)

theorem gaFold_models {α : Type} (step : ℕ → Except PyErr (ℚ × α)) (inc : ℕ → ℚ)
    (pay : ℕ → α) :
    ∀ (ks : List ℕ) (acc : List (ℚ × α)),
      (∀ k ∈ ks, step k = .ok (inc k, pay k)) → (acc.map Prod.fst).Nodup →
      ∃ el, gaFold step ks acc = .ok el ∧ (el.map Prod.fst).Nodup ∧
        (∀ key', key' ∈ el.map Prod.fst ↔ key' ∈ acc.map Prod.fst ∨ key' ∈ ks.map inc) ∧
        (∀ key', el.lookup key' =
          match (ks.filter (fun k => inc k = key')).getLast? with
          | some k => some (pay k)
          | none => acc.lookup key') := by
  intro ks
  induction ks with
  | nil =>
      intro acc _ hnd
      refine ⟨acc, rfl, hnd, by simp, ?_⟩
      intro key'
      simp
  | cons k0 t ih =>
      intro acc hstep hnd
      have hstep0 := hstep k0 (List.mem_cons_self _ _)
      have hstept : ∀ k ∈ t, step k = .ok (inc k, pay k) :=
        fun k hk => hstep k (List.mem_cons_of_mem _ hk)
      have hnd2 := nodup_keys_assocPut acc (inc k0) (pay k0) hnd
      obtain ⟨el, hel, helnd, hmem, hlook⟩ := ih (assocPut acc (inc k0) (pay k0)) hstept hnd2
      refine ⟨el, ?_, helnd, ?_, ?_⟩
      · rw [gaFold, hstep0]
        exact hel
      · intro key'
        rw [hmem key', keys_assocPut, List.map_cons]
        constructor
        · intro h
          rcases h with (rfl | h) | h
          · exact Or.inr (List.mem_cons_self _ _)
          · exact Or.inl h
          · exact Or.inr (List.mem_cons_of_mem _ h)
        · intro h
          rcases h with h | h
          · exact Or.inl (Or.inr h)
          · rcases List.mem_cons.mp h with rfl | h2
            · exact Or.inl (Or.inl rfl)
            · exact Or.inr h2
      · intro key'
        rw [hlook key', List.filter_cons]
        by_cases h0 : inc k0 = key'
        · rw [if_pos (by simpa using h0)]
          cases hF : (t.filter (fun k => decide (inc k = key'))).getLast? with
          | none =>
              have hFnil : t.filter (fun k => decide (inc k = key')) = [] :=
                List.getLast?_eq_none_iff.mp hF
              rw [hFnil]
              simp only [List.getLast?_singleton]
              rw [lookup_assocPut _ _ _ _ hnd, if_pos h0.symm]
          | some kl =>
              have hFne : t.filter (fun k => decide (inc k = key')) ≠ [] := by
                intro h
                rw [h] at hF
                cases hF
              rw [getLast?_cons_of_ne_nil _ _ hFne, hF]
        · rw [if_neg (by simpa using h0)]
          cases hF : (t.filter (fun k => decide (inc k = key'))).getLast? with
          | none =>
              rw [lookup_assocPut _ _ _ _ hnd, if_neg (fun h => h0 h.symm)]
          | some kl => rfl

unseal Rat.mul Rat.add Rat.sub Rat.inv in
/-- C8 counterexample: on an equality LP where entering candidates `0` and
`1` achieve the same greatest increase `1` (witnessed by the two `gaStep`
evaluations), the claim says the tie goes to candidate `0`, found first; the
code pivots on candidate `1` instead — the dictionary entry for the tied key
was overwritten — as the returned basis `[2, 1]` (without `0`) shows. -/
theorem C8_counterexample :
    simplexIteration ⟨[[1, 0, 1, 0], [0, 1, 0, 1]], [1, 1], [1, 1, 0, 0], true⟩
        [0, 0, 1, 1] [2, 3] "greatest_ascent" defaultTol 0
      = .ok ([0, 1, 1, 0], [2, 1], 1, false) ∧
    gaStep 4 [[1, 0, 1, 0], [0, 1, 0, 1]] [1, 1, 0, 0] [0, 0, 1, 1] [2, 3] 0
      = .ok (1, (0, 2, 1, [0, 0, 1, 0])) ∧
    gaStep 4 [[1, 0, 1, 0], [0, 1, 0, 1]] [1, 1, 0, 0] [0, 0, 1, 1] [2, 3] 1
      = .ok (1, (1, 3, 1, [0, 0, 0, 1])) ∧
    (0 : ℤ) ∉ ([2, 1] : List ℤ) := by
  refine ⟨by decide, by decide, by decide, by decide⟩

/-- C8 (amended): the `greatest_ascent` candidate loop (`gaFold` over
`gaStep`, exactly the code's `eligible` dictionary) followed by the
`max`-key pick (`gaPick`) selects the candidate maximizing the achievable
increase `t * red_costs[k]`, but ties are broken toward the candidate whose
maximal increase was found *last* (`lastArgmaxBy`), because assigning an
existing dictionary key overwrites the earlier candidate. -/
theorem C8_greatest_ascent_selection (n : ℕ) (A : List (List ℚ)) (red x : List ℚ)
    (Bs : List ℤ) (ks : List ℕ) (inc : ℕ → ℚ) (pay : ℕ → ℤ × ℤ × ℚ × List ℚ)
    (hne : ks ≠ [])
    (hstep : ∀ k ∈ ks, gaStep n A red x Bs k = .ok (inc k, pay k)) :
    ∃ el, gaFold (gaStep n A red x Bs) ks [] = .ok el ∧
      gaPick el = pay (lastArgmaxBy inc ks) ∧
      lastArgmaxBy inc ks ∈ ks ∧
      ∀ k ∈ ks, inc k ≤ inc (lastArgmaxBy inc ks) := by
  obtain ⟨el, hel, helnd, hmem, hlook⟩ :=
    gaFold_models (gaStep n A red x Bs) inc pay ks [] hstep (by simp)
  obtain ⟨hkmem, hkbound, hkfilter⟩ := lastArgmaxBy_spec inc ks hne
  set kst := lastArgmaxBy inc ks with hkst
  refine ⟨el, hel, ?_, hkmem, hkbound⟩
  have hkstk : inc kst ∈ el.map Prod.fst :=
    (hmem _).mpr (Or.inr (List.mem_map_of_mem inc hkmem))
  have helne : el ≠ [] := by
    intro h
    rw [h] at hkstk
    cases hkstk
  obtain ⟨hKmem, hKbound⟩ := maxKeyQ_spec el helne
  have hK1 : maxKeyQ el ∈ ks.map inc := by
    have := (hmem (maxKeyQ el)).mp hKmem
    simpa using this
  have hKle : maxKeyQ el ≤ inc kst := by
    rcases List.mem_map.mp hK1 with ⟨k, hk, hke⟩
    rw [← hke]
    exact hkbound k hk
  have hKeq : maxKeyQ el = inc kst := le_antisymm hKle (hKbound _ hkstk)
  rw [gaPick, hlook (maxKeyQ el), hKeq, hkfilter]
  rfl

unseal Rat.mul Rat.add Rat.sub Rat.inv in
/-- Witness for `C8_greatest_ascent_selection` on the tied instance of
`C8_counterexample`: the fold selects candidate `1`, the last of the two
tied candidates. -/
theorem C8_greatest_ascent_selection_witness :
    ∃ el, gaFold (gaStep 4 [[1, 0, 1, 0], [0, 1, 0, 1]] [1, 1, 0, 0] [0, 0, 1, 1] [2, 3])
        [0, 1] [] = .ok el ∧
      gaPick el = (fun k => if k = 0 then ((0 : ℤ), (2 : ℤ), (1 : ℚ), [0, 0, 1, 0])
        else ((1 : ℤ), (3 : ℤ), (1 : ℚ), ([0, 0, 0, 1] : List ℚ)))
          (lastArgmaxBy (fun _ => (1 : ℚ)) [0, 1]) ∧
      lastArgmaxBy (fun _ => (1 : ℚ)) [0, 1] ∈ [0, 1] ∧
      ∀ k ∈ [0, 1], (fun _ => (1 : ℚ)) k ≤ (fun _ => (1 : ℚ)) (lastArgmaxBy (fun _ => (1 : ℚ)) [0, 1]) :=
  C8_greatest_ascent_selection 4 [[1, 0, 1, 0], [0, 1, 0, 1]] [1, 1, 0, 0] [0, 0, 1, 1]
    [2, 3] [0, 1] (fun _ => 1)
    (fun k => if k = 0 then ((0 : ℤ), (2 : ℤ), (1 : ℚ), [0, 0, 1, 0])
      else ((1 : ℤ), (3 : ℤ), (1 : ℚ), ([0, 0, 0, 1] : List ℚ)))
    (by decide) (by decide)

/-! ## Claim C4: the unbounded ratio test -/

theorem simplexIteration_core (lp : LP) (x : List ℚ) (B : List ℤ) (rule : String)
    (tol : ℚ) (uin : ℤ) (xB : List ℚ)
    (hrule : rule ∈ pivotRules) (hx : x.length = (equalityForm lp).n)
    (hbfs : getBasicFeasibleSol lp B defaultTol = .ok xB)
    (hclose : allclose x xB tol = true) :
    simplexIteration lp x B rule tol uin
      = iterCore (equalityForm lp).n (equalityForm lp).A (equalityForm lp).c x
          (sortInts B) rule uin := by
  simp only [simplexIteration, hbfs, if_pos hrule, if_pos hx, if_pos hclose]

unseal Rat.mul Rat.add Rat.sub Rat.inv in
/-- C4: if `simplex_iteration` selects an entering index with positive
reduced cost under any non-`greatest_ascent` rule and no basic index has a
positive direction component (an empty ratio test), the call raises
`UnboundedLinearProgram`; and on the inequality LP `A = [[1, -1]]`,
`b = [1]`, `c = [1, 1]` the full `simplex` driver raises
`UnboundedLinearProgram`. -/
theorem C4_unbounded_no_positive_direction :
    (∀ (lp : LP) (x : List ℚ) (B : List ℤ) (rule : String) (tol : ℚ) (uin : ℤ)
        (xB : List ℚ),
      rule ∈ ["bland", "min_index", "dantzig", "max_reduced_cost", "manual_select"] →
      x.length = (equalityForm lp).n →
      getBasicFeasibleSol lp B defaultTol = .ok xB →
      allclose x xB tol = true →
      enteringOf (equalityForm lp).n (equalityForm lp).A (equalityForm lp).c
        (sortInts B) ≠ [] →
      ratiosOf x (sortInts B)
        (dirOf (equalityForm lp).n (equalityForm lp).A (sortInts B)
          (chooseEntering rule
            (redCosts (equalityForm lp).n (equalityForm lp).A (equalityForm lp).c
              (sortInts B))
            (enteringOf (equalityForm lp).n (equalityForm lp).A (equalityForm lp).c
              (sortInts B)) uin)) = [] →
      simplexIteration lp x B rule tol uin
        = .error (.unboundedLinearProgram "This LP is unbounded")) ∧
    simplex 10 ⟨[[1, -1]], [1], [1, 1], false⟩ "bland" none none defaultTol
      = .error (.unboundedLinearProgram "This LP is unbounded") := by
  constructor
  · intro lp x B rule tol uin xB hrule5 hx hbfs hclose hks hrt
    have hrule : rule ∈ pivotRules := by
      simp only [List.mem_cons, List.not_mem_nil, or_false] at hrule5
      rcases hrule5 with rfl | rfl | rfl | rfl | rfl <;> decide
    have hga : ¬rule = "greatest_ascent" := by
      simp only [List.mem_cons, List.not_mem_nil, or_false] at hrule5
      rcases hrule5 with rfl | rfl | rfl | rfl | rfl <;> decide
    rw [simplexIteration_core lp x B rule tol uin xB hrule hx hbfs hclose, iterCore,
      if_neg hks, if_neg hga]
    simp only []
    rw [if_pos hrt]
  · decide

unseal Rat.mul Rat.add Rat.sub Rat.inv in
/-- Witness for the universal part of `C4_unbounded_no_positive_direction`:
the final iteration of the scenario LP, where entering candidate `1` has
direction `d = (-1, 0, 0)` with no positive component. -/
theorem C4_unbounded_witness :
    simplexIteration ⟨[[1, -1]], [1], [1, 1], false⟩ [1, 0, 0] [0] "bland" defaultTol 0
      = .error (.unboundedLinearProgram "This LP is unbounded") :=
  C4_unbounded_no_positive_direction.1 ⟨[[1, -1]], [1], [1, 1], false⟩ [1, 0, 0] [0]
    "bland" defaultTol 0 [1, 0, 0] (by decide) (by decide) (by decide) (by decide)
    (by decide) (by decide)

/-! ## Claim C3: `phase_one` and `Infeasible` -/

theorem getBasicFeasibleSol_ne_infeasible (lp : LP) (B : List ℤ) (tol : ℚ) (msg : String) :
    getBasicFeasibleSol lp B tol ≠ .error (.infeasible msg) := by
  rw [getBasicFeasibleSol]
  split
  · intro h; simp at h
  · split
    · split
      · split
        · split
          · intro h; simp at h
          · intro h; simp at h
        · intro h; simp at h
      · intro h; simp at h
    · intro h; simp at h

theorem getTableau_ne_infeasible (lp : LP) (B : List ℤ) (msg : String) :
    getTableau lp B ≠ .error (.infeasible msg) := by
  rw [getTableau]
  split
  · intro h; simp at h
  · intro h; simp at h

theorem gaStep_ne_infeasible (n : ℕ) (A : List (List ℚ)) (red x : List ℚ)
    (Bs : List ℤ) (k : ℕ) (msg : String) :
    gaStep n A red x Bs k ≠ .error (.infeasible msg) := by
  rw [gaStep]
  split
  · intro h; simp at h
  · intro h; simp at h

theorem gaFold_ne_infeasible {α : Type} (step : ℕ → Except PyErr (ℚ × α)) (msg : String)
    (hstep : ∀ k, step k ≠ .error (.infeasible msg)) :
    ∀ (ks : List ℕ) (acc : List (ℚ × α)), gaFold step ks acc ≠ .error (.infeasible msg) := by
  intro ks
  induction ks with
  | nil => intro acc h; simp [gaFold] at h
  | cons k t ih =>
      intro acc
      rw [gaFold]
      cases hk : step k with
      | error e =>
          intro h
          injection h with h2
          subst h2
          exact hstep k hk
      | ok kv => exact ih _

theorem iterCore_ne_infeasible (n : ℕ) (A : List (List ℚ)) (c x : List ℚ)
    (Bs : List ℤ) (rule : String) (uin : ℤ) (msg : String) :
    iterCore n A c x Bs rule uin ≠ .error (.infeasible msg) := by
  rw [iterCore]
  split
  · intro h; simp at h
  · split
    · cases hf : gaFold (gaStep n A (redCosts n A c Bs) x Bs) (enteringOf n A c Bs) [] with
      | error e =>
          intro h
          injection h with h2
          subst h2
          exact gaFold_ne_infeasible _ msg
            (fun k => gaStep_ne_infeasible n A (redCosts n A c Bs) x Bs k msg) _ _ hf
      | ok elig =>
          simp only [hf]
          intro h
          simp [iterUpdate] at h
    · simp only []
      split
      · intro h; simp at h
      · intro h; simp [iterUpdate] at h

theorem simplexIteration_ne_infeasible (lp : LP) (x : List ℚ) (B : List ℤ)
    (rule : String) (tol : ℚ) (uin : ℤ) (msg : String) :
    simplexIteration lp x B rule tol uin ≠ .error (.infeasible msg) := by
  by_cases hrule : rule ∈ pivotRules
  · simp only [simplexIteration, if_pos hrule]
    by_cases hx : x.length = (equalityForm lp).n
    · rw [if_pos hx]
      cases hbfs : getBasicFeasibleSol lp B defaultTol with
      | error e =>
          simp only [hbfs]
          intro h
          injection h with h2
          subst h2
          exact getBasicFeasibleSol_ne_infeasible lp B defaultTol msg hbfs
      | ok xB =>
          simp only [hbfs]
          by_cases hclose : allclose x xB tol = true
          · rw [if_pos hclose]
            exact iterCore_ne_infeasible _ _ _ _ _ _ _ _
          · rw [if_neg hclose]
            intro h; simp at h
    · rw [if_neg hx]
      intro h; simp at h
  · rw [simplexIteration, if_neg hrule]
    intro h; simp at h

theorem phaseOneLoop_ne_infeasible (n : ℕ) (rule : String) (tol : ℚ) (msg : String) :
    ∀ (fuel : ℕ) (auxLp : LP) (x : List ℚ) (B : List ℤ),
      phaseOneLoop fuel n rule tol auxLp x B ≠ .error (.infeasible msg) := by
  intro fuel
  induction fuel with
  | zero => intro auxLp x B h; simp [phaseOneLoop] at h
  | succ fuel ih =>
      intro auxLp x B
      rw [phaseOneLoop]
      cases hit : simplexIteration auxLp x B rule tol 0 with
      | error e =>
          intro h
          injection h with h2
          subst h2
          exact simplexIteration_ne_infeasible auxLp x B rule tol 0 msg hit
      | ok q =>
          obtain ⟨x1, B1, value, opt⟩ := q
          simp only []
          cases hT : getTableau auxLp B1 with
          | error e =>
              intro h
              injection h with h2
              subst h2
              exact getTableau_ne_infeasible auxLp B1 msg hT
          | ok T =>
              simp only []
              split
              · intro h; simp at h
              · exact ih _ _ _

theorem driveOutStep_ne_infeasible (n : ℕ) (auxLp : LP) (A : List (List ℚ))
    (b x : List ℚ) (B : List ℤ) (i : ℤ) (ci : ℕ) (msg : String) :
    driveOutStep n auxLp A b x B i ci ≠ .error (.infeasible msg) := by
  rw [driveOutStep]
  split
  · rename_i j rest heq
    cases hT : getTableau auxLp
        (sortInts ((Int.ofNat j :: B.filter (fun e => e ≠ i)).dedup)) with
    | error e =>
        simp only [hT]
        intro h
        injection h with h2
        subst h2
        exact getTableau_ne_infeasible _ _ msg hT
    | ok T => simp only [hT]; intro h; simp at h
  · intro h; simp at h

theorem driveOut_ne_infeasible (n : ℕ) (auxLp : LP) (msg : String) :
    ∀ (fuel : ℕ) (A : List (List ℚ)) (b c x : List ℚ) (B : List ℤ),
      driveOut fuel n auxLp A b c x B ≠ .error (.infeasible msg) := by
  intro fuel
  induction fuel with
  | zero => intro A b c x B h; simp [driveOut] at h
  | succ fuel ih =>
      intro A b c x B
      rw [driveOut]
      split
      · intro h; simp at h
      · rename_i i hi
        split
        · intro h; simp at h
        · split
          · intro h; simp at h
          · cases hstep : driveOutStep n auxLp A b x B i
                (((List.range A.length).filter
                  (fun rIdx => wrapGet (A.getD rIdx []) i ≠ 0)).headD 0) with
            | error e =>
                simp only [hstep]
                intro h
                injection h with h2
                subst h2
                exact driveOutStep_ne_infeasible _ _ _ _ _ _ _ _ msg hstep
            | ok q =>
                obtain ⟨A1, b1, x1, B1⟩ := q
                simp only [hstep]
                exact ih _ _ _ _ _

unseal Rat.mul Rat.add Rat.sub Rat.inv in
/-- C3: `phase_one` raises `Infeasible` exactly when its auxiliary loop
reaches optimality with a final auxiliary objective value strictly below
`-tol` (no other stage of `phase_one` can produce `Infeasible`); and on the
contradictory equality LP `x1 + x2 = 1`, `x1 + x2 = 2` it does raise
`Infeasible`. -/
theorem C3_phase_one_infeasible_iff :
    (∀ (lp : LP) (rule : String) (tol : ℚ) (fuel : ℕ),
      phaseOne fuel lp rule tol
          = .error (.infeasible "The LP has no feasible solutions.") ↔
        ∃ v lpA xA BA,
          phaseOneLoop fuel (equalityForm lp).n rule tol (auxInit lp) (xInit lp)
              (basisInit lp) = .ok (v, lpA, xA, BA) ∧ v < -tol) ∧
    phaseOne 10 ⟨[[1, 1], [1, 1]], [1, 2], [0, 0], true⟩ "bland" defaultTol
      = .error (.infeasible "The LP has no feasible solutions.") := by
  constructor
  · intro lp rule tol fuel
    simp only [phaseOne]
    cases hloop : phaseOneLoop fuel (equalityForm lp).n rule tol (auxInit lp)
        (xInit lp) (basisInit lp) with
    | error e =>
        constructor
        · intro h
          injection h with h2
          subst h2
          exact absurd hloop (phaseOneLoop_ne_infeasible _ _ _ _ fuel _ _ _)
        · rintro ⟨v, lpA, xA, BA, hok, hv⟩
          exact Except.noConfusion hok
    | ok q =>
        obtain ⟨v, lpA, xA, BA⟩ := q
        simp only []
        by_cases hv : v < -tol
        · rw [if_pos hv]
          exact ⟨fun _ => ⟨v, lpA, xA, BA, rfl, hv⟩, fun _ => rfl⟩
        · rw [if_neg hv]
          constructor
          · intro h
            exact absurd h (driveOut_ne_infeasible _ _ _ fuel _ _ _ _ _)
          · rintro ⟨v', lpA', xA', BA', hok, hv'⟩
            injection hok with h2
            rw [Prod.mk.injEq] at h2
            rw [← h2.1] at hv'
            exact absurd hv' hv
  · decide

/-! ## Claim C9: the iteration limit -/

theorem simplexLoop_limit (lp : LP) (rule : String) (tol : ℚ) :
    ∀ (fuel : ℕ) (l : ℤ) (x : List ℚ) (B : List ℤ) (path : List (List ℚ))
      (bases : List (List ℤ)) (r : List (List ℚ) × List (List ℤ) × ℚ × Bool),
      0 < l →
      simplexLoop fuel lp rule tol x B path bases (some l) = .ok r →
      r.1.length ≤ path.length + l.toNat ∧
        (r.2.2.2 = false → r.1.length = path.length + l.toNat) := by
  intro fuel
  induction fuel with
  | zero =>
      intro l x B path bases r hl h
      exact Except.noConfusion h
  | succ fuel ih =>
      intro l x B path bases r hl h
      rw [simplexLoop] at h
      cases hit : simplexIteration lp x B rule tol 0 with
      | error e =>
          rw [hit] at h
          exact Except.noConfusion h
      | ok q =>
          obtain ⟨x1, B1, v1, opt⟩ := q
          rw [hit] at h
          simp only [] at h
          cases opt with
          | true =>
              rw [if_pos rfl] at h
              injection h with h2
              rw [← h2]
              constructor
              · exact Nat.le_add_right _ _
              · intro hfalse
                cases hfalse
          | false =>
              rw [if_neg (by simp)] at h
              by_cases hl1 : l - 1 = 0
              · rw [if_pos hl1] at h
                injection h with h2
                rw [← h2]
                have hl1' : l = 1 := by omega
                constructor
                · simp [hl1']
                · intro _
                  simp [hl1']
              · rw [if_neg hl1] at h
                have hl2 : 0 < l - 1 := by
                  rcases lt_or_le 1 l with h2 | h2
                  · omega
                  · omega
                obtain ⟨hle, heq⟩ := ih (l - 1) x1 B1 (path ++ [x1]) (bases ++ [B1]) r hl2 h
                simp only [List.length_append, List.length_singleton] at hle heq
                have htn : (l - 1).toNat = l.toNat - 1 := by omega
                have htn2 : 1 ≤ l.toNat := by omega
                constructor
                · rw [htn] at hle
                  omega
                · intro hfalse
                  have := heq hfalse
                  rw [htn] at this
                  omega

/-- C9: `simplex` raises `ValueError` for every supplied
`iteration_limit ≤ 0`; and with a positive limit `l`, every successful run
performs at most `l` pivot iterations — the returned path has at most
`l + 1` entries — and a run stopped by the limit before optimality was
detected returns `isOptimal = false` having performed exactly `l`
iterations (path of exactly `l + 1` entries). -/
theorem C9_iteration_limit :
    (∀ (fuel : ℕ) (lp : LP) (rule : String) (init : Option (List ℚ)) (l : ℤ) (tol : ℚ),
      l ≤ 0 → ∃ msg, simplex fuel lp rule init (some l) tol = .error (.valueError msg)) ∧
    (∀ (fuel : ℕ) (lp : LP) (rule : String) (init : Option (List ℚ)) (l : ℤ) (tol : ℚ)
        (r : List (List ℚ) × List (List ℤ) × ℚ × Bool),
      0 < l → simplex fuel lp rule init (some l) tol = .ok r →
      r.1.length ≤ l.toNat + 1 ∧ (r.2.2.2 = false → r.1.length = l.toNat + 1)) := by
  constructor
  · intro fuel lp rule init l tol hl
    by_cases hrule : rule ∈ pivotRules
    · exact ⟨"Iteration limit must be strictly positive.",
        by rw [simplex, if_pos hrule, if_pos ⟨l, rfl, hl⟩]⟩
    · exact ⟨invalidPivotMsg, by rw [simplex, if_neg hrule]⟩
  · intro fuel lp rule init l tol r hl hok
    rw [simplex] at hok
    by_cases hrule : rule ∈ pivotRules
    · rw [if_pos hrule, if_neg ?hlim] at hok
      case hlim =>
        rintro ⟨l', hl', hle⟩
        injection hl' with h2
        rw [← h2] at hle
        omega
      cases hp : phaseOne fuel lp rule defaultTol with
      | error e =>
          rw [hp] at hok
          exact Except.noConfusion hok
      | ok q =>
          obtain ⟨x0, B0⟩ := q
          rw [hp] at hok
          simp only [] at hok
          cases hcs : chooseStart lp tol x0 B0 init with
          | error e =>
              rw [hcs] at hok
              exact Except.noConfusion hok
          | ok q2 =>
              obtain ⟨x1, B1⟩ := q2
              rw [hcs] at hok
              simp only [] at hok
              have := simplexLoop_limit lp rule tol fuel l x1 B1 [x1] [B1] r hl hok
              simpa [Nat.add_comm] using this
    · rw [if_neg hrule] at hok
      exact Except.noConfusion hok

unseal Rat.mul Rat.add Rat.sub Rat.inv in
/-- Witness for `C9_iteration_limit`: a zero limit raises `ValueError`, and
a successful limited run (limit 5, two path entries, optimal) respects the
path-length bound. -/
theorem C9_iteration_limit_witness :
    (∃ msg, simplex 10 ⟨[[1, 1]], [1], [0, 1], true⟩ "bland" none (some 0) defaultTol
      = .error (.valueError msg)) ∧
    (([[1, 0], [0, 1]] : List (List ℚ)).length ≤ (5 : ℤ).toNat + 1 ∧
      ((true : Bool) = false → ([[1, 0], [0, 1]] : List (List ℚ)).length = (5 : ℤ).toNat + 1)) :=
  ⟨C9_iteration_limit.1 10 ⟨[[1, 1]], [1], [0, 1], true⟩ "bland" none 0 defaultTol
      (by decide),
    C9_iteration_limit.2 10 ⟨[[1, 1]], [1], [0, 1], true⟩ "bland" none 5 0
      ([[1, 0], [0, 1]], [[0], [1]], 1, true) (by decide) (by decide)⟩

/-! ## Claim C5: objective monotonicity -/

theorem foldl_min_mem {α : Type} [LinearOrder α] :
    ∀ (l : List α) (b : α), l.foldl min b ∈ b :: l := by
  intro l
  induction l with
  | nil => intro b; exact List.mem_cons_self _ _
  | cons a t ih =>
      intro b
      rw [List.foldl_cons]
      rcases List.mem_cons.mp (ih (min b a)) with h | h
      · rcases min_choice b a with h2 | h2
        · rw [h, h2]; exact List.mem_cons_self _ _
        · rw [h, h2]; exact List.mem_cons_of_mem _ (List.mem_cons_self _ _)
      · exact List.mem_cons_of_mem _ (List.mem_cons_of_mem _ h)

theorem minNatL_mem (l : List ℕ) (h : l ≠ []) : minNatL l ∈ l := by
  cases l with
  | nil => exact absurd rfl h
  | cons a t =>
      rw [minNatL, List.headD_cons]
      rcases List.mem_cons.mp (foldl_min_mem (a :: t) a) with h2 | h2
      · rw [h2]; exact List.mem_cons_self _ _
      · exact h2

theorem minZ_mem (l : List ℤ) (h : l ≠ []) : minZ l ∈ l := by
  cases l with
  | nil => exact absurd rfl h
  | cons a t =>
      rw [minZ, List.headD_cons]
      rcases List.mem_cons.mp (foldl_min_mem (a :: t) a) with h2 | h2
      · rw [h2]; exact List.mem_cons_self _ _
      · exact h2

theorem minQ_mem (l : List ℚ) (h : l ≠ []) : minQ l ∈ l := by
  cases l with
  | nil => exact absurd rfl h
  | cons a t =>
      rw [minQ, List.headD_cons]
      rcases List.mem_cons.mp (foldl_min_mem (a :: t) a) with h2 | h2
      · rw [h2]; exact List.mem_cons_self _ _
      · exact h2

theorem argmaxFirst_mem (f : ℕ → ℚ) (l : List ℕ) (h : l ≠ []) : argmaxFirst f l ∈ l := by
  cases l with
  | nil => exact absurd rfl h
  | cons a t =>
      rw [argmaxFirst, List.headD_cons]
      have hgen : ∀ (t' : List ℕ) (b : ℕ),
          t'.foldl (fun best k => if f k > f best then k else best) b ∈ b :: t' := by
        intro t'
        induction t' with
        | nil => intro b; exact List.mem_cons_self _ _
        | cons a' t2 ih =>
            intro b
            rw [List.foldl_cons]
            by_cases hc : f a' > f b
            · rw [if_pos hc]
              rcases List.mem_cons.mp (ih a') with h2 | h2
              · rw [h2]; exact List.mem_cons_of_mem _ (List.mem_cons_self _ _)
              · exact List.mem_cons_of_mem _ (List.mem_cons_of_mem _ h2)
            · rw [if_neg hc]
              rcases List.mem_cons.mp (ih b) with h2 | h2
              · rw [h2]; exact List.mem_cons_self _ _
              · exact List.mem_cons_of_mem _ (List.mem_cons_of_mem _ h2)
      rcases List.mem_cons.mp (hgen (a :: t) a) with h2 | h2
      · rw [h2]; exact List.mem_cons_self _ _
      · exact h2

theorem lookup_mem {α : Type} :
    ∀ (l : List (ℚ × α)) (key : ℚ) (v : α), l.lookup key = some v → (key, v) ∈ l := by
  intro l
  induction l with
  | nil => intro key v h; cases h
  | cons p t ih =>
      intro key v h
      obtain ⟨k, b⟩ := p
      rw [lookup_cons] at h
      by_cases hk : key = k
      · rw [if_pos hk] at h
        injection h with h2
        rw [hk, h2]
        exact List.mem_cons_self _ _
      · rw [if_neg hk] at h
        exact List.mem_cons_of_mem _ (ih key v h)

theorem mem_keys_lookup {α : Type} :
    ∀ (l : List (ℚ × α)) (key : ℚ), key ∈ l.map Prod.fst → ∃ v, l.lookup key = some v := by
  intro l
  induction l with
  | nil => intro key h; cases h
  | cons p t ih =>
      intro key h
      obtain ⟨k, b⟩ := p
      rw [lookup_cons]
      by_cases hk : key = k
      · exact ⟨b, by rw [if_pos hk]⟩
      · rw [if_neg hk]
        apply ih
        rw [List.map_cons] at h
        rcases List.mem_cons.mp h with h2 | h2
        · exact absurd h2 hk
        · exact h2

theorem mem_assocPut {α : Type} (l : List (ℚ × α)) (key : ℚ) (v : α) (p : ℚ × α)
    (hp : p ∈ assocPut l key v) : p ∈ l ∨ p = (key, v) := by
  rw [assocPut] at hp
  by_cases hany : l.any (fun q => q.1 == key) = true
  · rw [if_pos hany] at hp
    rcases List.mem_map.mp hp with ⟨q, hq, hqe⟩
    by_cases hqk : q.1 == key
    · rw [if_pos hqk] at hqe
      exact Or.inr hqe.symm
    · rw [if_neg hqk] at hqe
      exact Or.inl (hqe ▸ hq)
  · rw [if_neg hany] at hp
    rcases List.mem_append.mp hp with h | h
    · exact Or.inl h
    · rcases List.mem_singleton.mp h with rfl
      exact Or.inr rfl

theorem assocPut_ne_nil {α : Type} (l : List (ℚ × α)) (key : ℚ) (v : α) :
    assocPut l key v ≠ [] := by
  rw [assocPut]
  by_cases hany : l.any (fun q => q.1 == key) = true
  · rw [if_pos hany]
    intro h
    rcases List.any_eq_true.mp hany with ⟨q, hq, _⟩
    rw [List.map_eq_nil.mp h] at hq
    cases hq
  · rw [if_neg hany]
    intro h
    cases List.append_eq_nil.mp h with
    | intro h1 h2 => cases h2

theorem getD_mem {α : Type} (l : List α) (i : ℕ) (d : α) (h : i < l.length) :
    l.getD i d ∈ l := by
  rw [List.getD_eq_getElem _ _ h]
  exact List.getElem_mem h

theorem lookupZ_cons {α : Type} (k : ℤ) (b : α) (t : List (ℤ × α)) (key' : ℤ) :
    ((k, b) :: t).lookup key' = if key' = k then some b else t.lookup key' := by
  rw [List.lookup]
  cases hbe : key' == k with
  | true =>
      simp only []
      rw [if_pos (beq_iff_eq.mp hbe)]
  | false =>
      simp only []
      rw [if_neg (by simpa using hbe)]

theorem lookupZ_mem {α : Type} :
    ∀ (l : List (ℤ × α)) (key : ℤ) (v : α), l.lookup key = some v → (key, v) ∈ l := by
  intro l
  induction l with
  | nil => intro key v h; cases h
  | cons p t ih =>
      intro key v h
      obtain ⟨k, b⟩ := p
      rw [lookupZ_cons] at h
      by_cases hk : key = k
      · rw [if_pos hk] at h
        injection h with h2
        rw [hk, h2]
        exact List.mem_cons_self _ _
      · rw [if_neg hk] at h
        exact List.mem_cons_of_mem _ (ih key v h)

theorem mem_keys_lookupZ {α : Type} :
    ∀ (l : List (ℤ × α)) (key : ℤ), key ∈ l.map Prod.fst → ∃ v, l.lookup key = some v := by
  intro l
  induction l with
  | nil => intro key h; cases h
  | cons p t ih =>
      intro key h
      obtain ⟨k, b⟩ := p
      rw [lookupZ_cons]
      by_cases hk : key = k
      · exact ⟨b, by rw [if_pos hk]⟩
      · rw [if_neg hk]
        apply ih
        rw [List.map_cons] at h
        rcases List.mem_cons.mp h with h2 | h2
        · exact absurd h2 hk
        · exact h2

theorem dotL_set (c x : List ℚ) (p : ℕ) (t : ℚ) (hp : p < x.length) (hpc : p < c.length) :
    dotL c (x.set p t) = dotL c x + c.getD p 0 * (t - x.getD p 0) := by
  rw [dotL, dotL]
  have hcongr : ∀ j ∈ Finset.range c.length,
      c.getD j 0 * (x.set p t).getD j 0
        = c.getD j 0 * x.getD j 0 + (if j = p then c.getD p 0 * (t - x.getD p 0) else 0) := by
    intro j _
    rw [getD_set]
    by_cases hjp : j = p
    · subst hjp
      rw [if_pos ⟨rfl, hp⟩, if_pos rfl]
      ring
    · rw [if_neg (fun hand => hjp hand.1), if_neg hjp, add_zero]
  rw [Finset.sum_congr rfl hcongr, Finset.sum_add_distrib,
    Finset.sum_ite_eq' (Finset.range c.length) p (fun _ => c.getD p 0 * (t - x.getD p 0)),
    if_pos (Finset.mem_range.mpr hpc)]

theorem dotL_scatterW (c : List ℚ) :
    ∀ (ps : List ℤ) (vals x : List ℚ),
      (ps.map (wrapIdx x.length)).Nodup →
      (∀ q ∈ ps, wrapIdx x.length q < x.length) →
      vals.length = ps.length → c.length = x.length →
      dotL c (scatterW x ps vals)
        = dotL c x + ∑ i ∈ Finset.range ps.length,
            c.getD (wrapIdx x.length (ps.getD i 0)) 0 *
              (vals.getD i 0 - x.getD (wrapIdx x.length (ps.getD i 0)) 0) := by
  intro ps
  induction ps with
  | nil =>
      intro vals x _ _ _ _
      rw [scatterW_nil_left]
      simp
  | cons q tl ih =>
      intro vals x hnd hin hlen hc
      cases vals with
      | nil => exact absurd hlen (by simp)
      | cons w vals' =>
          rw [scatterW_cons]
          have hq : wrapIdx x.length q < x.length := hin q (List.mem_cons_self _ _)
          have hxl : (x.set (wrapIdx x.length q) w).length = x.length := List.length_set x _ _
          have hnotmem : wrapIdx x.length q ∉ tl.map (wrapIdx x.length) := by
            rw [List.map_cons] at hnd
            exact (List.nodup_cons.mp hnd).1
          have hnd' : (tl.map (wrapIdx (x.set (wrapIdx x.length q) w).length)).Nodup := by
            rw [hxl]
            rw [List.map_cons] at hnd
            exact (List.nodup_cons.mp hnd).2
          have hin' : ∀ p ∈ tl, wrapIdx (x.set (wrapIdx x.length q) w).length p
              < (x.set (wrapIdx x.length q) w).length := by
            rw [hxl]
            exact fun p hp => hin p (List.mem_cons_of_mem _ hp)
          have hlen' : vals'.length = tl.length := by simpa using hlen
          have hc' : c.length = (x.set (wrapIdx x.length q) w).length := by rw [hxl, hc]
          rw [ih vals' _ hnd' hin' hlen' hc',
            dotL_set c x (wrapIdx x.length q) w hq (by rw [hc]; exact hq),
            List.length_cons, Finset.sum_range_succ']
          have hterm : ∀ i ∈ Finset.range tl.length,
              c.getD (wrapIdx (x.set (wrapIdx x.length q) w).length (tl.getD i 0)) 0 *
                (vals'.getD i 0 -
                  (x.set (wrapIdx x.length q) w).getD
                    (wrapIdx (x.set (wrapIdx x.length q) w).length (tl.getD i 0)) 0)
                = c.getD (wrapIdx x.length ((q :: tl).getD (i + 1) 0)) 0 *
                  ((w :: vals').getD (i + 1) 0 -
                    x.getD (wrapIdx x.length ((q :: tl).getD (i + 1) 0)) 0) := by
            intro i hi
            have hi' := Finset.mem_range.mp hi
            rw [List.getD_cons_succ, List.getD_cons_succ, hxl]
            have hne : wrapIdx x.length (tl.getD i 0) ≠ wrapIdx x.length q := by
              intro h
              apply hnotmem
              rw [← h]
              exact List.mem_map_of_mem _ (getD_mem tl i 0 hi')
            rw [getD_set, if_neg (fun hand => hne hand.1)]
          rw [Finset.sum_congr rfl hterm]
          simp only [List.getD_cons_zero]
          ring

theorem headD_length (M : List (List ℚ)) (m : ℕ) (hlen : M.length = m)
    (hrect : ∀ r ∈ M, r.length = m) : (M.headD []).length = m := by
  cases M with
  | nil => exact hlen
  | cons r t => exact hrect r (List.mem_cons_self _ _)

theorem transposeL_length (M : List (List ℚ)) (m : ℕ) (hlen : M.length = m)
    (hrect : ∀ r ∈ M, r.length = m) : (transposeL M).length = m := by
  rw [transposeL, List.length_map, List.length_range, headD_length M m hlen hrect]

theorem transposeL_rows (M : List (List ℚ)) (m : ℕ) (hlen : M.length = m) :
    ∀ r ∈ transposeL M, r.length = m := by
  intro r hr
  rcases List.mem_map.mp hr with ⟨j, _, rfl⟩
  rw [colOf, List.length_map, hlen]

theorem getD_transposeL (M : List (List ℚ)) (m : ℕ) (hlen : M.length = m)
    (hrect : ∀ r ∈ M, r.length = m) (i : ℕ) (hi : i < m) :
    (transposeL M).getD i [] = colOf M i := by
  rw [transposeL,
    getD_map_range ((M.headD []).length) (fun j => colOf M j) i [],
    if_pos (show i < (M.headD []).length by rw [headD_length M m hlen hrect]; exact hi)]

theorem matOf_transposeL (m : ℕ) (M : List (List ℚ)) (hlen : M.length = m)
    (hrect : ∀ r ∈ M, r.length = m) :
    matOf m m (transposeL M) = (matOf m m M).transpose := by
  ext i j
  rw [Matrix.transpose_apply, matOf, matOf, Matrix.of_apply, Matrix.of_apply,
    getD_transposeL M m hlen hrect (i : ℕ) i.isLt, colOf,
    getD_map_row (fun r => r.getD (i : ℕ) 0) M (j : ℕ) (by rw [hlen]; exact j.isLt) [] 0]

theorem detL_transposeL (m : ℕ) (M : List (List ℚ)) (hlen : M.length = m)
    (hrect : ∀ r ∈ M, r.length = m) (hdet : detL M ≠ 0) :
    detL (transposeL M) ≠ 0 := by
  rw [detL, transposeL_length M m hlen hrect, detN_eq_det,
    matOf_transposeL m M hlen hrect, Matrix.det_transpose]
  rw [detL, hlen, detN_eq_det] at hdet
  exact hdet

/-- The dual identity behind the reduced-cost update: with `y` solving
`A_Bᵀ y = c_B` and `d_B` solving `A_B d_B = A_k`, the products
`c_B · d_B` and `A_k · y` agree. -/
theorem dual_dot (n m : ℕ) (A : List (List ℚ)) (c : List ℚ) (Bs : List ℤ) (k' : ℕ)
    (hlen : A.length = m) (hrect : ∀ r ∈ A, r.length = n) (hBs : Bs.length = m)
    (hk : k' < n)
    (hdet : detL (colsel A Bs) ≠ 0) :
    dotL (Bs.map (fun i => wrapGet c i))
        (solveL (colsel A Bs) (A.map (fun r => wrapGet r (Int.ofNat k'))))
      = dotL (colOf A k')
          (solveL (transposeL (colsel A Bs)) (Bs.map (fun i => wrapGet c i))) := by
  set M := colsel A Bs with hM
  set cBs := Bs.map (fun i => wrapGet c i) with hcBs
  set acol := A.map (fun r => wrapGet r (Int.ofNat k')) with hacol
  set dsol := solveL M acol with hdsol
  set y := solveL (transposeL M) cBs with hy
  have hM1 : M.length = m := by rw [hM, colsel_length, hlen]
  have hM2 : ∀ r ∈ M, r.length = m := by
    intro r hr
    rw [colsel_rows A Bs r hr, hBs]
  have hdetT : detL (transposeL M) ≠ 0 := detL_transposeL m M hM1 hM2 hdet
  have hT1 : (transposeL M).length = m := transposeL_length M m hM1 hM2
  have hT2 : ∀ r ∈ transposeL M, r.length = m := transposeL_rows M m hM1
  have hcBsl : cBs.length = m := by rw [hcBs, List.length_map, hBs]
  have hcoll : (colOf A k').length = m := by rw [colOf, List.length_map, hlen]
  have hrow : ∀ j : Fin m, (M.getD (j : ℕ) []).length = m :=
    fun j => hM2 _ (getD_mem M (j : ℕ) [] (by rw [hM1]; exact j.isLt))
  have hF1 : ∀ j : Fin m, dotL (M.getD (j : ℕ) []) dsol = acol.getD (j : ℕ) 0 :=
    fun j => solveL_correct m M acol hM1 hM2 hdet (j : ℕ) j.isLt
  have hF2' : ∀ i : Fin m, dotL (colOf M (i : ℕ)) y = cBs.getD (i : ℕ) 0 := by
    intro i
    rw [← getD_transposeL M m hM1 hM2 (i : ℕ) i.isLt]
    exact solveL_correct m (transposeL M) cBs hT1 hT2 hdetT (i : ℕ) i.isLt
  rw [dotL_eq_sum_fin m cBs dsol hcBsl, dotL_eq_sum_fin m (colOf A k') y hcoll]
  have hstep1 : ∀ i : Fin m,
      cBs.getD (i : ℕ) 0 * dsol.getD (i : ℕ) 0
        = ∑ j : Fin m,
            (M.getD (j : ℕ) []).getD (i : ℕ) 0 * y.getD (j : ℕ) 0 * dsol.getD (i : ℕ) 0 := by
    intro i
    rw [← hF2' i, dotL_eq_sum_fin m (colOf M (i : ℕ)) y (by rw [colOf, List.length_map, hM1]),
      Finset.sum_mul]
    refine Finset.sum_congr rfl (fun j _ => ?_)
    rw [colOf, getD_map_row (fun r => r.getD (i : ℕ) 0) M (j : ℕ)
      (by rw [hM1]; exact j.isLt) [] 0]
  rw [Finset.sum_congr rfl (fun i _ => hstep1 i), Finset.sum_comm]
  refine Finset.sum_congr rfl (fun j _ => ?_)
  have hpull : ∑ i : Fin m,
      (M.getD (j : ℕ) []).getD (i : ℕ) 0 * y.getD (j : ℕ) 0 * dsol.getD (i : ℕ) 0
        = (∑ i : Fin m, (M.getD (j : ℕ) []).getD (i : ℕ) 0 * dsol.getD (i : ℕ) 0)
            * y.getD (j : ℕ) 0 := by
    rw [Finset.sum_mul]
    exact Finset.sum_congr rfl (fun i _ => by ring)
  rw [hpull, ← dotL_eq_sum_fin m (M.getD (j : ℕ) []) dsol (hrow j), hF1 j]
  have hacolj : acol.getD (j : ℕ) 0 = (colOf A k').getD (j : ℕ) 0 := by
    rw [hacol, getD_map_row (fun r => wrapGet r (Int.ofNat k')) A (j : ℕ)
        (by rw [hlen]; exact j.isLt) [] 0,
      colOf, getD_map_row (fun r => r.getD k' 0) A (j : ℕ)
        (by rw [hlen]; exact j.isLt) [] 0,
      wrapGet, hrect _ (getD_mem A (j : ℕ) [] (by rw [hlen]; exact j.isLt)),
      wrapIdx, Int.ofNat_eq_coe]
    rw [if_neg (by omega), Int.toNat_ofNat]
  rw [hacolj]

theorem gaFold_pick_source {α : Type} (step : ℕ → Except PyErr (ℚ × α)) :
    ∀ (ks : List ℕ) (acc el : List (ℚ × α)),
      gaFold step ks acc = .ok el →
      (∀ p ∈ el, p ∈ acc ∨ ∃ k ∈ ks, step k = .ok p) ∧
        ((acc ≠ [] ∨ ks ≠ []) → el ≠ []) := by
  intro ks
  induction ks with
  | nil =>
      intro acc el h
      injection h with h2
      subst h2
      refine ⟨fun p hp => Or.inl hp, ?_⟩
      rintro (h | h)
      · exact h
      · exact absurd rfl h
  | cons k0 t ih =>
      intro acc el h
      rw [gaFold] at h
      cases hk0 : step k0 with
      | error e => rw [hk0] at h; exact Except.noConfusion h
      | ok kv =>
          rw [hk0] at h
          simp only [] at h
          obtain ⟨hsrc, hne⟩ := ih (assocPut acc kv.1 kv.2) el h
          constructor
          · intro p hp
            rcases hsrc p hp with hacc | ⟨k, hk, hke⟩
            · rcases mem_assocPut acc kv.1 kv.2 p hacc with h2 | h2
              · exact Or.inl h2
              · refine Or.inr ⟨k0, List.mem_cons_self _ _, ?_⟩
                rw [hk0, h2]
            · exact Or.inr ⟨k, List.mem_cons_of_mem _ hk, hke⟩
          · intro _
            exact hne (Or.inl (assocPut_ne_nil acc kv.1 kv.2))

theorem getLast?_mem {α : Type} : ∀ (l : List α) (a : α), l.getLast? = some a → a ∈ l := by
  intro l
  induction l with
  | nil => intro a h; cases h
  | cons b t ih =>
      intro a h
      cases t with
      | nil =>
          have hb : (b :: ([] : List α)).getLast? = some b := rfl
          rw [hb] at h
          injection h with h2
          rw [← h2]
          exact List.mem_cons_self _ _
      | cons c t' =>
          rw [getLast?_cons_of_ne_nil b (c :: t') (by simp)] at h
          exact List.mem_cons_of_mem _ (ih a h)

theorem sorted_le_getLast :
    ∀ (l : List ℤ), l.Sorted (· ≤ ·) → ∀ last, l.getLast? = some last →
      ∀ q ∈ l, q ≤ last := by
  intro l
  induction l with
  | nil => intro _ last h; cases h
  | cons a t ih =>
      intro hs last hlast q hq
      obtain ⟨ha, ht⟩ := List.sorted_cons.mp hs
      cases t with
      | nil =>
          have h1 : (a :: ([] : List ℤ)).getLast? = some a := rfl
          rw [h1] at hlast
          injection hlast with h2
          rcases List.mem_singleton.mp hq with rfl
          exact le_of_eq h2
      | cons b t' =>
          rw [getLast?_cons_of_ne_nil a (b :: t') (by simp)] at hlast
          rcases List.mem_cons.mp hq with rfl | hq2
          · exact ha last (getLast?_mem _ _ hlast)
          · exact ih ht last hlast q hq2

theorem sortInts_sorted (B : List ℤ) : (sortInts B).Sorted (· ≤ ·) :=
  List.sorted_insertionSort _ B

theorem getD_append_lt {α : Type} :
    ∀ (l l2 : List α) (i : ℕ) (d : α), i < l.length →
      (l ++ l2).getD i d = l.getD i d := by
  intro l
  induction l with
  | nil => intro l2 i d h; exact absurd h (Nat.not_lt_zero i)
  | cons a t ih =>
      intro l2 i d h
      cases i with
      | zero => rfl
      | succ i' => exact ih l2 i' d (Nat.lt_of_succ_lt_succ h)

theorem getD_append_length {α : Type} :
    ∀ (l : List α) (a d : α), (l ++ [a]).getD l.length d = a := by
  intro l
  induction l with
  | nil => intro a d; rfl
  | cons b t ih => intro a d; exact ih a d

theorem getD_getLast? {α : Type} :
    ∀ (l : List α) (a d : α), l.getLast? = some a → l.getD (l.length - 1) d = a := by
  intro l
  induction l with
  | nil => intro a d h; cases h
  | cons b t ih =>
      intro a d h
      cases t with
      | nil => injection h with h2
      | cons c t' =>
          rw [getLast?_cons_of_ne_nil b (c :: t') (by simp)] at h
          have h2 := ih a d h
          simp only [List.length_cons, Nat.add_sub_cancel] at h2 ⊢
          rw [List.getD_cons_succ]
          simpa using h2

theorem wrapIdx_ofNat (len k : ℕ) : wrapIdx len (Int.ofNat k) = k := by
  rw [wrapIdx, Int.ofNat_eq_coe, if_neg (by omega), Int.toNat_ofNat]

theorem allclose_iff (a b : List ℚ) (atol : ℚ) :
    allclose a b atol = true ↔ a.length = b.length ∧
      ∀ i, i < a.length →
        |a.getD i 0 - b.getD i 0| ≤ atol + (1 / 100000) * |b.getD i 0| := by
  rw [allclose, Bool.and_eq_true, beq_iff_eq, List.all_eq_true]
  constructor
  · rintro ⟨h1, h2⟩
    exact ⟨h1, fun i hi => of_decide_eq_true (h2 i (List.mem_range.mpr hi))⟩
  · rintro ⟨h1, h2⟩
    exact ⟨h1, fun i hi => decide_eq_true (h2 i (List.mem_range.mp hi))⟩

theorem ratiosOf_mem (x : List ℚ) (Bs : List ℤ) (d : List ℚ) (r : ℤ) (t : ℚ)
    (h : (r, t) ∈ ratiosOf x Bs d) :
    r ∈ Bs ∧ 0 < wrapGet d r ∧ t = wrapGet x r / wrapGet d r := by
  rcases List.mem_filterMap.mp h with ⟨i, hi, he⟩
  by_cases hpos : 0 < wrapGet d i
  · rw [if_pos hpos] at he
    injection he with h2
    injection h2 with hr htv
    subst hr
    exact ⟨hi, hpos, htv.symm⟩
  · rw [if_neg hpos] at he
    cases he

/-- The leaving-index/step-length pair the source reads back out of the ratio
dictionary is one of the dictionary's entries. -/
theorem ratio_pick_mem (rts : List (ℤ × ℚ)) (hne : rts ≠ []) :
    (minZ ((rts.filter (fun p => p.2 = minQ (rts.map Prod.snd))).map Prod.fst),
      ((rts.lookup (minZ ((rts.filter
        (fun p => p.2 = minQ (rts.map Prod.snd))).map Prod.fst))).getD 0))
      ∈ rts := by
  have hmapne : rts.map Prod.snd ≠ [] := by
    intro h
    exact hne (List.map_eq_nil_iff.mp h)
  rcases List.mem_map.mp (minQ_mem _ hmapne) with ⟨p0, hp0, hp0e⟩
  have hfil : p0 ∈ rts.filter (fun p => p.2 = minQ (rts.map Prod.snd)) :=
    List.mem_filter.mpr ⟨hp0, decide_eq_true hp0e⟩
  have hfilne : (rts.filter (fun p => p.2 = minQ (rts.map Prod.snd))).map Prod.fst ≠ [] := by
    intro h
    have hmem := List.mem_map_of_mem Prod.fst hfil
    rw [h] at hmem
    cases hmem
  rcases List.mem_map.mp (minZ_mem _ hfilne) with ⟨p1, hp1, hp1e⟩
  have hkey : minZ ((rts.filter (fun p => p.2 = minQ (rts.map Prod.snd))).map Prod.fst)
      ∈ rts.map Prod.fst := by
    rw [← hp1e]
    exact List.mem_map_of_mem _ (List.mem_filter.mp hp1).1
  rcases mem_keys_lookupZ rts _ hkey with ⟨v, hv⟩
  rw [hv, Option.getD_some]
  exact lookupZ_mem rts _ v hv

/-- Success characterization of one `greatest_ascent` candidate evaluation:
the stored payload is `(k, r, t, d)` with `d` the simplex direction of `k`
and `(r, t)` an entry of the ratio dictionary. -/
theorem gaStep_ok_inv (n : ℕ) (A : List (List ℚ)) (red x : List ℚ) (Bs : List ℤ)
    (k : ℕ) (key : ℚ) (p : ℤ × ℤ × ℚ × List ℚ)
    (h : gaStep n A red x Bs k = .ok (key, p)) :
    p.1 = Int.ofNat k ∧ p.2.2.2 = dirOf n A Bs (Int.ofNat k) ∧
      (p.2.1, p.2.2.1) ∈ ratiosOf x Bs (dirOf n A Bs (Int.ofNat k)) := by
  simp only [gaStep] at h
  by_cases hrts : ratiosOf x Bs (dirOf n A Bs (Int.ofNat k)) = []
  · rw [if_pos hrts] at h
    exact Except.noConfusion h
  · rw [if_neg hrts] at h
    injection h with h2
    injection h2 with hkey hp
    rw [← hp]
    exact ⟨rfl, rfl, ratio_pick_mem _ hrts⟩

/-- The state update of a pivot keeps the basis free of negative indices
when the entering index is a plain natural. -/
theorem iterUpdate_basis_nonneg (c x : List ℚ) (Bs : List ℤ) (k : ℕ) (r : ℤ)
    (t : ℚ) (d : List ℚ) (x1 : List ℚ) (B1 : List ℤ) (v1 : ℚ) (b1 : Bool)
    (hB : ∀ q ∈ Bs, 0 ≤ q)
    (h : iterUpdate c x Bs (Int.ofNat k) r t d = .ok (x1, B1, v1, b1)) :
    ∀ q ∈ B1, 0 ≤ q := by
  simp only [iterUpdate, Except.ok.injEq, Prod.mk.injEq] at h
  obtain ⟨-, hB1, -, -⟩ := h
  intro q hq
  rw [← hB1] at hq
  rcases List.mem_append.mp (List.mem_of_mem_erase hq) with h2 | h2
  · exact hB q h2
  · rcases List.mem_singleton.mp h2 with rfl
    rw [Int.ofNat_eq_coe]
    omega

/-- The heart of claim C5: one pivot of the revised simplex step never
decreases the objective, provided the current point is the (nonnegative)
basic solution of the current basis — the objective changes by `t · r_k ≥ 0`
where `t ≥ 0` is the ratio-test step and `r_k > 0` the reduced cost. -/
theorem pivot_step_mono (n : ℕ) (A : List (List ℚ)) (c x : List ℚ) (Bs : List ℤ)
    (k' : ℕ) (r : ℤ) (t : ℚ) (x2 : List ℚ) (B2 : List ℤ) (v2 : ℚ) (b2 : Bool)
    (hAne : A ≠ [])
    (hrect : ∀ row ∈ A, row.length = n)
    (hc : c.length = n) (hx : x.length = n)
    (hx0 : ∀ j, j < n → 0 ≤ x.getD j 0)
    (hxnb : ∀ j, j < n → Int.ofNat j ∉ Bs → x.getD j 0 = 0)
    (hBr : ∀ q ∈ Bs, 0 ≤ q ∧ q < (n : ℤ))
    (hinv : invertible (colsel A Bs) = true)
    (hk : k' ∈ enteringOf n A c Bs)
    (ht : (r, t) ∈ ratiosOf x Bs (dirOf n A Bs (Int.ofNat k')))
    (hup : iterUpdate c x Bs (Int.ofNat k') r t (dirOf n A Bs (Int.ofNat k'))
      = .ok (x2, B2, v2, b2)) :
    dotL c x ≤ dotL c x2 := by
  obtain ⟨hBsl, hdet⟩ := invertible_square A Bs hAne hinv
  set m := A.length with hm
  have hBs : Bs.length = m := hBsl.symm
  have hkfacts : k' < n ∧ Int.ofNat k' ∉ Bs ∧ 0 < (redCosts n A c Bs).getD k' 0 := by
    rw [enteringOf] at hk
    have h1 := List.mem_filter.mp hk
    have h2 := List.mem_filter.mp h1.1
    exact ⟨List.mem_range.mp h2.1, of_decide_eq_true h2.2, of_decide_eq_true h1.2⟩
  obtain ⟨hkn, hknb, hred⟩ := hkfacts
  set d := dirOf n A Bs (Int.ofNat k') with hd
  have hwrap : ∀ q ∈ Bs, wrapIdx n q < n ∧ Int.ofNat (wrapIdx n q) = q := by
    intro q hq
    obtain ⟨h0, h1⟩ := hBr q hq
    rw [wrapIdx, if_neg (by omega), Int.ofNat_eq_coe]
    constructor <;> omega
  have hnd : (Bs.map (wrapIdx n)).Nodup :=
    wraps_nodup n m A Bs hm.symm hrect hBs hdet
  obtain ⟨hrB, hdpos, htval⟩ := ratiosOf_mem x Bs d r t ht
  have ht0 : 0 ≤ t := by
    rw [htval]
    apply div_nonneg _ (le_of_lt hdpos)
    rw [wrapGet, hx]
    exact hx0 _ (hwrap r hrB).1
  simp only [iterUpdate, Except.ok.injEq, Prod.mk.injEq] at hup
  obtain ⟨hx2, -, -, -⟩ := hup
  rw [← hx2]
  set wk := wrapIdx x.length (Int.ofNat k') with hwk
  have hwk' : wk = k' := by rw [hwk, hx, wrapIdx_ofNat]
  set x1 := x.set wk t with hx1
  have hx1l : x1.length = n := by rw [hx1, List.length_set, hx]
  set dsol := solveL (colsel A Bs) (A.map (fun row => wrapGet row (Int.ofNat k'))) with hdsol
  have hdunfold : d = scatterW (zerosL n) Bs dsol := by rw [hd, dirOf, hdsol]
  have hdl : d.length = n := by rw [hdunfold, scatterW_length, zerosL_length]
  have hdsoll : dsol.length = Bs.length := by
    rw [hdsol, solveL, List.length_map, List.length_range, colsel_length]
    exact hBsl
  have hwrapz : ∀ q ∈ Bs, wrapIdx (zerosL n).length q < (zerosL n).length := by
    rw [zerosL_length]
    exact fun q hq => (hwrap q hq).1
  have hndz : (Bs.map (wrapIdx (zerosL n).length)).Nodup := by
    rw [zerosL_length]
    exact hnd
  have hdidx : ∀ idx, idx < Bs.length →
      d.getD (wrapIdx n (Bs.getD idx 0)) 0 = dsol.getD idx 0 := by
    intro idx hidx
    have hres := getD_scatterW_nth (zerosL n) Bs dsol hndz hdsoll hwrapz idx hidx
    rw [zerosL_length] at hres
    rw [hdunfold]
    exact hres
  set vals := Bs.map (fun i => wrapGet x1 i - t * wrapGet d i) with hvals
  have hvalsl : vals.length = Bs.length := by rw [hvals, List.length_map]
  have hndx1 : (Bs.map (wrapIdx x1.length)).Nodup := by rw [hx1l]; exact hnd
  have hinx1 : ∀ q ∈ Bs, wrapIdx x1.length q < x1.length := by
    rw [hx1l]
    exact fun q hq => (hwrap q hq).1
  have hcx1 : c.length = x1.length := by rw [hx1l, hc]
  rw [dotL_scatterW c Bs vals x1 hndx1 hinx1 hvalsl hcx1]
  have hxk0 : x.getD k' 0 = 0 := hxnb k' hkn hknb
  have hdot1 : dotL c x1 = dotL c x + c.getD k' 0 * t := by
    rw [hx1, hwk', dotL_set c x k' t (by rw [hx]; exact hkn) (by rw [hc]; exact hkn),
      hxk0, sub_zero]
  have hsum : ∑ i ∈ Finset.range Bs.length,
      c.getD (wrapIdx x1.length (Bs.getD i 0)) 0 *
        (vals.getD i 0 - x1.getD (wrapIdx x1.length (Bs.getD i 0)) 0)
      = -t * dotL (Bs.map (fun i => wrapGet c i)) dsol := by
    have hterm : ∀ i ∈ Finset.range Bs.length,
        c.getD (wrapIdx x1.length (Bs.getD i 0)) 0 *
          (vals.getD i 0 - x1.getD (wrapIdx x1.length (Bs.getD i 0)) 0)
          = -t * ((Bs.map (fun q => wrapGet c q)).getD i 0 * dsol.getD i 0) := by
      intro i hi
      have hi' := Finset.mem_range.mp hi
      have hv : vals.getD i 0
          = wrapGet x1 (Bs.getD i 0) - t * wrapGet d (Bs.getD i 0) := by
        rw [hvals, getD_map_row (fun q => wrapGet x1 q - t * wrapGet d q) Bs i hi' 0 0]
      have hwg : wrapGet x1 (Bs.getD i 0)
          = x1.getD (wrapIdx x1.length (Bs.getD i 0)) 0 := rfl
      have hwd : wrapGet d (Bs.getD i 0) = dsol.getD i 0 := by
        rw [wrapGet, hdl]
        exact hdidx i hi'
      have hcB : (Bs.map (fun q => wrapGet c q)).getD i 0
          = c.getD (wrapIdx x1.length (Bs.getD i 0)) 0 := by
        rw [getD_map_row (fun q => wrapGet c q) Bs i hi' 0 0, wrapGet, hc, hx1l]
      rw [hv, hwg, hwd, hcB]
      ring
    rw [Finset.sum_congr rfl hterm, ← Finset.mul_sum]
    congr 1
    rw [dotL, List.length_map]
  have hdd : dotL (Bs.map (fun i => wrapGet c i)) dsol
      = dotL (colOf A k')
          (solveL (transposeL (colsel A Bs)) (Bs.map (fun i => wrapGet c i))) := by
    rw [hdsol]
    exact dual_dot n m A c Bs k' hm.symm hrect hBs hkn hdet
  have hredval : (redCosts n A c Bs).getD k' 0
      = c.getD k' 0 - dotL (colOf A k')
          (solveL (transposeL (colsel A Bs)) (Bs.map (fun i => wrapGet c i))) := by
    rw [redCosts, getD_map_range n _ k' 0, if_pos hkn]
  rw [hdot1, hsum, hdd]
  have hkey : c.getD k' 0 * t + -t * dotL (colOf A k')
      (solveL (transposeL (colsel A Bs)) (Bs.map (fun i => wrapGet c i)))
      = t * ((redCosts n A c Bs).getD k' 0) := by
    rw [hredval]
    ring
  have hnn : 0 ≤ t * ((redCosts n A c Bs).getD k' 0) :=
    mul_nonneg ht0 (le_of_lt hred)
  linarith

/-- Under any recognised non-interactive pivot rule, a non-optimal
`iterCore` step keeps the basis free of negative indices, and it never
decreases the objective provided the current point is componentwise
nonnegative. -/
theorem iterCore_mono (n : ℕ) (A : List (List ℚ)) (c x : List ℚ) (Bs : List ℤ)
    (rule : String) (uin : ℤ) (x1 : List ℚ) (B1 : List ℤ) (v1 : ℚ)
    (hAne : A ≠ []) (hrect : ∀ row ∈ A, row.length = n)
    (hc : c.length = n) (hx : x.length = n)
    (hxnb : ∀ j, j < n → Int.ofNat j ∉ Bs → x.getD j 0 = 0)
    (hBr : ∀ q ∈ Bs, 0 ≤ q ∧ q < (n : ℤ))
    (hinv : invertible (colsel A Bs) = true)
    (hrule : rule ∈ pivotRules) (hman : rule ≠ "manual_select")
    (hok : iterCore n A c x Bs rule uin = .ok (x1, B1, v1, false)) :
    (∀ q ∈ B1, 0 ≤ q) ∧
      ((∀ j, j < n → 0 ≤ x.getD j 0) → dotL c x ≤ dotL c x1) := by
  have hB0 : ∀ q ∈ Bs, 0 ≤ q := fun q hq => (hBr q hq).1
  simp only [iterCore] at hok
  by_cases hent : enteringOf n A c Bs = []
  · rw [if_pos hent] at hok
    simp only [Except.ok.injEq, Prod.mk.injEq] at hok
    exact absurd hok.2.2.2 (by simp)
  · rw [if_neg hent] at hok
    by_cases hga : rule = "greatest_ascent"
    · rw [if_pos hga] at hok
      cases hfold : gaFold (gaStep n A (redCosts n A c Bs) x Bs) (enteringOf n A c Bs) [] with
      | error e => rw [hfold] at hok; exact Except.noConfusion hok
      | ok elig =>
          rw [hfold] at hok
          simp only [] at hok
          obtain ⟨hsrc, hne⟩ := gaFold_pick_source _ (enteringOf n A c Bs) [] elig hfold
          have heligne : elig ≠ [] := hne (Or.inr hent)
          obtain ⟨hmk, -⟩ := maxKeyQ_spec elig heligne
          rcases mem_keys_lookup elig (maxKeyQ elig) hmk with ⟨pv, hpv⟩
          have hppick : gaPick elig = pv := by rw [gaPick, hpv, Option.getD_some]
          have hmem : (maxKeyQ elig, pv) ∈ elig := lookup_mem elig _ pv hpv
          rcases hsrc _ hmem with habs | ⟨k, hkmem, hkstep⟩
          · cases habs
          · obtain ⟨hp1, hp2, hp3⟩ :=
              gaStep_ok_inv n A (redCosts n A c Bs) x Bs k _ pv hkstep
            rw [hppick, hp1, hp2] at hok
            refine ⟨?_, ?_⟩
            · exact iterUpdate_basis_nonneg c x Bs k pv.2.1 pv.2.2.1 _ x1 B1 v1 false
                hB0 hok
            · intro hx0
              exact pivot_step_mono n A c x Bs k pv.2.1 pv.2.2.1 x1 B1 v1 false
                hAne hrect hc hx hx0 hxnb hBr hinv hkmem hp3 hok
    · rw [if_neg hga] at hok
      have hkex : ∃ k'', k'' ∈ enteringOf n A c Bs ∧
          chooseEntering rule (redCosts n A c Bs) (enteringOf n A c Bs) uin
            = Int.ofNat k'' := by
        simp only [pivotRules, List.mem_cons, List.not_mem_nil, or_false] at hrule
        rcases hrule with rfl | rfl | rfl | rfl | rfl | rfl
        · exact ⟨minNatL _, minNatL_mem _ hent, by rw [chooseEntering, if_pos (Or.inl rfl)]⟩
        · exact ⟨minNatL _, minNatL_mem _ hent, by rw [chooseEntering, if_pos (Or.inr rfl)]⟩
        · exact ⟨argmaxFirst _ _, argmaxFirst_mem _ _ hent,
            by rw [chooseEntering, if_neg (by decide), if_pos (Or.inl rfl)]⟩
        · exact ⟨argmaxFirst _ _, argmaxFirst_mem _ _ hent,
            by rw [chooseEntering, if_neg (by decide), if_pos (Or.inr rfl)]⟩
        · exact absurd rfl hga
        · exact absurd rfl hman
      rcases hkex with ⟨k'', hk''mem, hkeq⟩
      rw [hkeq] at hok
      by_cases hrts : ratiosOf x Bs (dirOf n A Bs (Int.ofNat k'')) = []
      · rw [if_pos hrts] at hok
        exact Except.noConfusion hok
      · rw [if_neg hrts] at hok
        have hrt := ratio_pick_mem (ratiosOf x Bs (dirOf n A Bs (Int.ofNat k''))) hrts
        refine ⟨?_, ?_⟩
        · exact iterUpdate_basis_nonneg c x Bs k'' _ _ _ x1 B1 v1 false hB0 hok
        · intro hx0
          exact pivot_step_mono n A c x Bs k'' _ _ x1 B1 v1 false
            hAne hrect hc hx hx0 hxnb hBr hinv hk''mem hrt hok

/-- Success characterization of `simplexIteration`: every guard passed and
the result is that of `iterCore` on the sorted basis. -/
theorem simplexIteration_ok_inv (lp : LP) (x : List ℚ) (B : List ℤ) (rule : String)
    (tol : ℚ) (uin : ℤ) (res : List ℚ × List ℤ × ℚ × Bool)
    (h : simplexIteration lp x B rule tol uin = .ok res) :
    rule ∈ pivotRules ∧ x.length = (equalityForm lp).n ∧
      ∃ xB, getBasicFeasibleSol lp B defaultTol = .ok xB ∧ allclose x xB tol = true ∧
        iterCore (equalityForm lp).n (equalityForm lp).A (equalityForm lp).c x
          (sortInts B) rule uin = .ok res := by
  simp only [simplexIteration] at h
  by_cases hrule : rule ∈ pivotRules
  · rw [if_pos hrule] at h
    by_cases hx : x.length = (equalityForm lp).n
    · rw [if_pos hx] at h
      cases hbfs : getBasicFeasibleSol lp B defaultTol with
      | error e => rw [hbfs] at h; exact Except.noConfusion h
      | ok xB =>
          rw [hbfs] at h
          simp only [] at h
          by_cases hclose : allclose x xB tol = true
          · rw [if_pos hclose] at h
            exact ⟨hrule, hx, xB, rfl, hclose, h⟩
          · rw [if_neg hclose] at h
            exact Except.noConfusion h
    · rw [if_neg hx] at h
      exact Except.noConfusion h
  · rw [if_neg hrule] at h
    exact Except.noConfusion h

/-- With `feasibility_tol = 0`, a successful non-optimal `simplex_iteration`
pivot keeps the basis free of negative indices (provided it had none) and,
whenever the current point is componentwise nonnegative, never decreases the
equality-form objective.  (The nonnegativity proviso is genuine: the inner
validation compares `x` against the basic solution at the hard-coded default
`1e-7` tolerance, so even at `feasibility_tol = 0` a validated point can
have slightly negative entries.) -/
theorem simplexIteration_mono (lp : LP) (x : List ℚ) (B : List ℤ) (rule : String)
    (uin : ℤ) (x1 : List ℚ) (B1 : List ℤ) (v1 : ℚ)
    (hWF : lp.WF) (hman : rule ≠ "manual_select")
    (hB0 : ∀ q ∈ B, 0 ≤ q)
    (hok : simplexIteration lp x B rule 0 uin = .ok (x1, B1, v1, false)) :
    (∀ q ∈ B1, 0 ≤ q) ∧
      ((∀ j, j < (equalityForm lp).n → 0 ≤ x.getD j 0) →
        dotL (equalityForm lp).c x ≤ dotL (equalityForm lp).c x1) := by
  obtain ⟨hrule, hxlen, xB, hbfs, hclose, hcore⟩ :=
    simplexIteration_ok_inv lp x B rule 0 uin _ hok
  obtain ⟨⟨last, hlast, hlastlt⟩, hinv, hxBeq, -⟩ :=
    getBasicFeasibleSol_ok lp B defaultTol xB hbfs
  set n := (equalityForm lp).n with hn
  set Bs := sortInts B with hBsdef
  have hBr : ∀ q ∈ Bs, 0 ≤ q ∧ q < (n : ℤ) := by
    intro q hq
    refine ⟨hB0 q ((mem_sortInts B q).mp hq), ?_⟩
    exact lt_of_le_of_lt (sorted_le_getLast Bs (sortInts_sorted B) last hlast q hq) hlastlt
  have hxBlen : xB.length = n := by rw [hxBeq, scatterW_length, zerosL_length]
  have hxBnb : ∀ j, j < n → Int.ofNat j ∉ Bs → xB.getD j 0 = 0 := by
    intro j hj hjnb
    have hnm : j ∉ Bs.map (wrapIdx (zerosL n).length) := by
      rw [zerosL_length]
      intro hmem
      rcases List.mem_map.mp hmem with ⟨q, hq, hqe⟩
      obtain ⟨h0, h1⟩ := hBr q hq
      apply hjnb
      have hjq : Int.ofNat j = q := by
        rw [← hqe, wrapIdx, if_neg (by omega), Int.ofNat_eq_coe]
        omega
      rw [hjq]
      exact hq
    rw [hxBeq, getD_scatterW_not_mem _ _ _ _ hnm, getD_zerosL]
  obtain ⟨hlen2, hcl⟩ := (allclose_iff x xB 0).mp hclose
  have hxnb : ∀ j, j < n → Int.ofNat j ∉ Bs → x.getD j 0 = 0 := by
    intro j hj hjnb
    have h1 := hcl j (by rw [hxlen]; exact hj)
    rw [hxBnb j hj hjnb] at h1
    simp only [sub_zero, abs_zero, mul_zero, add_zero] at h1
    exact abs_eq_zero.mp (le_antisymm h1 (abs_nonneg _))
  have hAne := eqForm_A_ne_nil lp hWF
  have hrect : ∀ row ∈ (equalityForm lp).A, row.length = n := by
    intro row hrow
    rw [hn, eqForm_n lp hWF]
    exact eqForm_rows lp hWF row hrow
  have hceq : (equalityForm lp).c.length = n := by
    rw [hn, eqForm_n lp hWF]
    exact eqForm_c_length lp hWF
  exact iterCore_mono n (equalityForm lp).A (equalityForm lp).c x Bs rule uin x1 B1 v1
    hAne hrect hceq hxlen hxnb hBr hinv hrule hman hcore

theorem truePositions_nonneg (v : List Bool) : ∀ q ∈ truePositions v, 0 ≤ q := by
  intro q hq
  rcases List.mem_map.mp hq with ⟨i, _, rfl⟩
  rw [Int.ofNat_eq_coe]
  omega

theorem phaseOneLoop_basis_nonneg :
    ∀ (fuel n : ℕ) (rule : String) (tol : ℚ) (auxLp : LP) (x : List ℚ) (B : List ℤ)
      (res : ℚ × LP × List ℚ × List ℤ),
      phaseOneLoop fuel n rule tol auxLp x B = .ok res → ∀ q ∈ res.2.2.2, 0 ≤ q := by
  intro fuel
  induction fuel with
  | zero => intro n rule tol auxLp x B res h; exact Except.noConfusion h
  | succ fuel ih =>
      intro n rule tol auxLp x B res h
      simp only [phaseOneLoop] at h
      cases hit : simplexIteration auxLp x B rule tol 0 with
      | error e => rw [hit] at h; exact Except.noConfusion h
      | ok q =>
          obtain ⟨x1, B1, value, opt⟩ := q
          rw [hit] at h
          simp only [] at h
          cases hT : getTableau auxLp B1 with
          | error e => rw [hT] at h; exact Except.noConfusion h
          | ok T =>
              rw [hT] at h
              simp only [] at h
              cases opt with
              | true =>
                  rw [if_pos rfl] at h
                  injection h with h2
                  rw [← h2]
                  intro q hq
                  exact truePositions_nonneg _ q hq
              | false =>
                  rw [if_neg Bool.false_ne_true] at h
                  exact ih n rule tol _ _ _ res h

theorem driveOut_basis_nonneg :
    ∀ (fuel n : ℕ) (auxLp : LP) (A : List (List ℚ)) (b c x : List ℚ) (B : List ℤ)
      (res : List ℚ × List ℤ),
      driveOut fuel n auxLp A b c x B = .ok res → (∀ q ∈ B, 0 ≤ q) →
      ∀ q ∈ res.2, 0 ≤ q := by
  intro fuel
  induction fuel with
  | zero => intro n auxLp A b c x B res h _; exact Except.noConfusion h
  | succ fuel ih =>
      intro n auxLp A b c x B res h hB
      simp only [driveOut] at h
      cases hlast : B.getLast? with
      | none => rw [hlast] at h; exact Except.noConfusion h
      | some i =>
          rw [hlast] at h
          simp only [] at h
          by_cases hlt : i < (n : ℤ)
          · rw [if_pos hlt] at h
            injection h with h2
            rw [← h2]
            exact hB
          · rw [if_neg hlt] at h
            by_cases hcnt : ((List.range A.length).filter
                (fun rIdx => wrapGet (A.getD rIdx []) i ≠ 0)).length ≠ 1
            · rw [if_pos hcnt] at h
              exact Except.noConfusion h
            · rw [if_neg hcnt] at h
              cases hds : driveOutStep n auxLp A b x B i
                  (((List.range A.length).filter
                    (fun rIdx => wrapGet (A.getD rIdx []) i ≠ 0)).headD 0) with
              | error e => rw [hds] at h; exact Except.noConfusion h
              | ok q4 =>
                  obtain ⟨A1, b1, x1, B1⟩ := q4
                  rw [hds] at h
                  simp only [] at h
                  exact ih n auxLp _ b1 _ _ _ res h (truePositions_nonneg _)

theorem phaseOne_basis_nonneg (fuel : ℕ) (lp : LP) (rule : String) (tol : ℚ)
    (res : List ℚ × List ℤ) (h : phaseOne fuel lp rule tol = .ok res) :
    ∀ q ∈ res.2, 0 ≤ q := by
  simp only [phaseOne] at h
  cases hloop : phaseOneLoop fuel (equalityForm lp).n rule tol (auxInit lp) (xInit lp)
      (basisInit lp) with
  | error e => rw [hloop] at h; exact Except.noConfusion h
  | ok q =>
      obtain ⟨value, auxLp2, x2, B2⟩ := q
      rw [hloop] at h
      simp only [] at h
      by_cases hneg : value < -tol
      · rw [if_pos hneg] at h
        exact Except.noConfusion h
      · rw [if_neg hneg] at h
        have hB2 := phaseOneLoop_basis_nonneg fuel _ rule tol _ _ _ _ hloop
        exact driveOut_basis_nonneg fuel _ auxLp2 auxLp2.A auxLp2.b auxLp2.c x2 B2 res h hB2

theorem chooseStart_basis_nonneg (lp : LP) (tol : ℚ) (x0 : List ℚ) (B0 : List ℤ)
    (init : Option (List ℚ)) (res : List ℚ × List ℤ)
    (h : chooseStart lp tol x0 B0 init = .ok res) (hB0 : ∀ q ∈ B0, 0 ≤ q) :
    ∀ q ∈ res.2, 0 ≤ q := by
  simp only [chooseStart] at h
  cases init with
  | none =>
      injection h with h2
      rw [← h2]
      exact hB0
  | some xs =>
      simp only [] at h
      by_cases hlen : xs.length = (equalityForm lp).n
      · rw [if_pos hlen] at h
        by_cases hcond : allclose (matvecL (equalityForm lp).A xs) (equalityForm lp).b tol
              = true ∧
            xs.all (fun v => -tol ≤ v) = true ∧
            (nonzeroPositions xs).length ≤ (equalityForm lp).m
        · rw [if_pos hcond] at h
          injection h with h2
          rw [← h2]
          intro q hq
          rcases List.mem_append.mp hq with h3 | h3
          · rcases List.mem_map.mp h3 with ⟨j, _, rfl⟩
            rw [Int.ofNat_eq_coe]
            omega
          · rcases List.mem_map.mp h3 with ⟨j, _, rfl⟩
            rw [Int.ofNat_eq_coe]
            omega
        · rw [if_neg hcond] at h
          injection h with h2
          rw [← h2]
          exact hB0
      · rw [if_neg hlen] at h
        exact Except.noConfusion h

/-- Monotonicity invariant of the `while(not optimal)` loop of `simplex` at
`feasibility_tol = 0`: if every adjacent pair of the accumulated path whose
earlier entry is componentwise nonnegative is nondecreasing in objective and
the loop succeeds, the same holds for every adjacent pair of the returned
path. -/
theorem simplexLoop_mono (lp : LP) (rule : String) (hWF : lp.WF)
    (hman : rule ≠ "manual_select") :
    ∀ (fuel : ℕ) (x : List ℚ) (B : List ℤ) (path : List (List ℚ))
      (bases : List (List ℤ)) (lim : Option ℤ)
      (res : List (List ℚ) × List (List ℤ) × ℚ × Bool),
      simplexLoop fuel lp rule 0 x B path bases lim = .ok res →
      (∀ q ∈ B, 0 ≤ q) →
      path.getLast? = some x →
      (∀ i, i + 1 < path.length →
        (∀ j, j < (equalityForm lp).n → 0 ≤ (path.getD i []).getD j 0) →
        dotL (equalityForm lp).c (path.getD i [])
          ≤ dotL (equalityForm lp).c (path.getD (i + 1) [])) →
      ∀ i, i + 1 < res.1.length →
        (∀ j, j < (equalityForm lp).n → 0 ≤ (res.1.getD i []).getD j 0) →
        dotL (equalityForm lp).c (res.1.getD i [])
          ≤ dotL (equalityForm lp).c (res.1.getD (i + 1) []) := by
  intro fuel
  induction fuel with
  | zero => intro x B path bases lim res h _ _ _; exact Except.noConfusion h
  | succ fuel ih =>
      intro x B path bases lim res h hB hlast hmono
      simp only [simplexLoop] at h
      cases hit : simplexIteration lp x B rule 0 0 with
      | error e => rw [hit] at h; exact Except.noConfusion h
      | ok q =>
          obtain ⟨x1, B1, v1, opt⟩ := q
          rw [hit] at h
          simp only [] at h
          cases opt with
          | true =>
              rw [if_pos rfl] at h
              injection h with h2
              rw [← h2]
              exact hmono
          | false =>
              rw [if_neg Bool.false_ne_true] at h
              obtain ⟨hB1, hstep⟩ :=
                simplexIteration_mono lp x B rule 0 x1 B1 v1 hWF hman hB hit
              have hlast1 : (path ++ [x1]).getLast? = some x1 := by simp
              have hmono1 : ∀ i, i + 1 < (path ++ [x1]).length →
                  (∀ j, j < (equalityForm lp).n →
                    0 ≤ ((path ++ [x1]).getD i []).getD j 0) →
                  dotL (equalityForm lp).c ((path ++ [x1]).getD i [])
                    ≤ dotL (equalityForm lp).c ((path ++ [x1]).getD (i + 1) []) := by
                intro i hi hpos
                rw [List.length_append, List.length_singleton] at hi
                by_cases hcase : i + 1 < path.length
                · rw [getD_append_lt path [x1] i [] (by omega)] at hpos ⊢
                  rw [getD_append_lt path [x1] (i + 1) [] hcase]
                  exact hmono i hcase hpos
                · have hieq : i + 1 = path.length := by omega
                  have hilt : i < path.length := by omega
                  rw [getD_append_lt path [x1] i [] hilt] at hpos ⊢
                  rw [hieq, getD_append_length]
                  have hxi : path.getD i [] = x := by
                    rw [show i = path.length - 1 by omega]
                    exact getD_getLast? path x [] hlast
                  rw [hxi] at hpos ⊢
                  exact hstep hpos
              cases lim with
              | none =>
                  exact ih x1 B1 (path ++ [x1]) (bases ++ [B1]) none res h hB1 hlast1 hmono1
              | some l =>
                  simp only [] at h
                  by_cases hl : l - 1 = 0
                  · rw [if_pos hl] at h
                    injection h with h2
                    rw [← h2]
                    exact hmono1
                  · rw [if_neg hl] at h
                    exact ih x1 B1 (path ++ [x1]) (bases ++ [B1]) (some (l - 1)) res h
                      hB1 hlast1 hmono1

unseal Rat.mul Rat.add Rat.sub Rat.inv in
/-- C5 counterexample: at the default `feasibility_tol = 1e-7`, a successful
`simplex` call can return a path along which the objective `c · x` strictly
decreases.  For `A = [[-1, -1]]`, `b = [5e-8]`, `c = [1, 2]` (equality form),
the run under the `bland` rule returns the two-entry path
`[-5e-8, 0], [0, -5e-8]` whose objective drops from `-5e-8` to `-1e-7`:
the within-tolerance-infeasible start lets a pivot with negative ratio-test
step decrease the objective, refuting the claim that `c · x` is
monotonically nondecreasing along consecutive path entries for every LP and
every successful call. -/
theorem C5_counterexample :
    ∃ path bases v opt,
      simplex 10 ⟨[[-1, -1]], [1 / 20000000], [1, 2], true⟩ "bland" none none defaultTol
        = .ok (path, bases, v, opt) ∧
      dotL (equalityForm ⟨[[-1, -1]], [1 / 20000000], [1, 2], true⟩).c (path.getD 1 [])
        < dotL (equalityForm ⟨[[-1, -1]], [1 / 20000000], [1, 2], true⟩).c
            (path.getD 0 []) :=
  ⟨[[-1 / 20000000, 0], [0, -1 / 20000000]], [[0], [1]], -1 / 10000000, true,
    by decide, by decide⟩

unseal Rat.mul Rat.add Rat.sub Rat.inv in
/-- C5 (amended): with `feasibility_tol = 0` and any pivot rule other than
the interactive `manual_select`, every successful `simplex` call returns a
path along which the objective `c · x` never decreases across an adjacent
pair whose earlier entry is componentwise nonnegative — each such pivot
changes the objective by `t · r_k ≥ 0` (ratio-test step times positive
reduced cost).  The nonnegativity proviso cannot be dropped: the validation
compares `x` against the basic solution computed at the *hard-coded default*
`1e-7` tolerance, so even at `feasibility_tol = 0` the run on
`A = [[-1, -1]]`, `b = [5e-8]`, `c = [1, 2]` under `bland` succeeds with a
strictly decreasing path, whose first entry has a negative component. -/
theorem C5_monotone_objective :
    (∀ (fuel : ℕ) (lp : LP) (rule : String) (init : Option (List ℚ))
        (lim : Option ℤ) (res : List (List ℚ) × List (List ℤ) × ℚ × Bool),
      lp.WF → rule ≠ "manual_select" →
      simplex fuel lp rule init lim 0 = .ok res →
      ∀ i, i + 1 < res.1.length →
        (∀ j, j < (equalityForm lp).n → 0 ≤ (res.1.getD i []).getD j 0) →
        dotL (equalityForm lp).c (res.1.getD i [])
          ≤ dotL (equalityForm lp).c (res.1.getD (i + 1) [])) ∧
    simplex 10 ⟨[[-1, -1]], [1 / 20000000], [1, 2], true⟩ "bland" none none 0
      = .ok ([[-1 / 20000000, 0], [0, -1 / 20000000]], [[0], [1]],
          -1 / 10000000, true) ∧
    dotL (equalityForm ⟨[[-1, -1]], [1 / 20000000], [1, 2], true⟩).c
        [0, -1 / 20000000]
      < dotL (equalityForm ⟨[[-1, -1]], [1 / 20000000], [1, 2], true⟩).c
          [-1 / 20000000, 0] := by
  refine ⟨?_, by decide, by decide⟩
  intro fuel lp rule init lim res hWF hman hok
  simp only [simplex] at hok
  by_cases hrule : rule ∈ pivotRules
  · rw [if_pos hrule] at hok
    by_cases hliml : ∃ l, lim = some l ∧ l ≤ 0
    · rw [if_pos hliml] at hok
      exact Except.noConfusion hok
    · rw [if_neg hliml] at hok
      cases hp1 : phaseOne fuel lp rule defaultTol with
      | error e => rw [hp1] at hok; exact Except.noConfusion hok
      | ok q0 =>
          obtain ⟨x0, B0⟩ := q0
          rw [hp1] at hok
          simp only [] at hok
          cases hcs : chooseStart lp 0 x0 B0 init with
          | error e => rw [hcs] at hok; exact Except.noConfusion hok
          | ok q1 =>
              obtain ⟨x1, B1⟩ := q1
              rw [hcs] at hok
              simp only [] at hok
              have hB0 := phaseOne_basis_nonneg fuel lp rule defaultTol (x0, B0) hp1
              have hB1 := chooseStart_basis_nonneg lp 0 x0 B0 init (x1, B1) hcs hB0
              exact simplexLoop_mono lp rule hWF hman fuel x1 B1 [x1] [B1] lim res hok
                hB1 rfl (fun i hi => absurd hi (by rw [List.length_singleton]; omega))
  · rw [if_neg hrule] at hok
    exact Except.noConfusion hok

unseal Rat.mul Rat.add Rat.sub Rat.inv in
/-- Concrete instantiation of the universal part of the amended C5
statement: the equality LP `x1 + x2 = 1`, `c = [0, 1]`, run with `bland`
and `feasibility_tol = 0`, succeeds with the two-entry path `[1, 0], [0, 1]`
(whose entries are nonnegative), and the amended theorem applies to it,
giving nondecreasing objectives along the path. -/
theorem C5_monotone_objective_witness :
    (⟨[[1, 1]], [1], [0, 1], true⟩ : LP).WF ∧ "bland" ≠ "manual_select" ∧
      simplex 10 ⟨[[1, 1]], [1], [0, 1], true⟩ "bland" none none 0
        = .ok ([[1, 0], [0, 1]], [[0], [1]], 1, true) ∧
      ∀ i, i + 1 < ([[1, 0], [0, 1]] : List (List ℚ)).length →
        (∀ j, j < (equalityForm ⟨[[1, 1]], [1], [0, 1], true⟩).n →
          0 ≤ (([[1, 0], [0, 1]] : List (List ℚ)).getD i []).getD j 0) →
        dotL (equalityForm ⟨[[1, 1]], [1], [0, 1], true⟩).c
            (([[1, 0], [0, 1]] : List (List ℚ)).getD i [])
          ≤ dotL (equalityForm ⟨[[1, 1]], [1], [0, 1], true⟩).c
            (([[1, 0], [0, 1]] : List (List ℚ)).getD (i + 1) []) :=
  ⟨by decide, by decide, by decide,
    C5_monotone_objective.1 10 ⟨[[1, 1]], [1], [0, 1], true⟩ "bland" none none
      ([[1, 0], [0, 1]], [[0], [1]], 1, true) (by decide) (by decide) (by decide)⟩

end Gilp
